import Mathlib

/-!
Verification of the architecture-configuration resolver and the state-dict
migration engine of `src/architectures/NLU_model.py` (the `smlp_mlm` model).

The Python `args` namespace is embedded as a function from attribute names to
optional values: `none` models an absent attribute, `some v` an attribute set
to `v`.  Each defaulting statement `args.tgt = getattr(args, src, d)` of a
registered architecture preset becomes a `Rule` (normally `tgt = src`; the one
statement of the source where the two differ is the misspelled lookup on line
503), and a preset applies its rules in source order before calling its parent
preset, exactly as the Python functions do.
-/

set_option maxRecDepth 8000

/-- A configuration value: Python int, float, bool, str or None.
Floats appear only as stored literals (never computed with), so they are
embedded as rationals. -/
inductive Value where
  | vInt : Int → Value
  | vFloat : Rat → Value
  | vBool : Bool → Value
  | vStr : String → Value
  | vNone : Value
deriving DecidableEq

/-- Every attribute name read or written by the registered architecture
presets of `NLU_model.py`.  `spectral_nrom_classification_head` is the
misspelled attribute that line 503 of the source reads (no preset ever
assigns it). -/
inductive ArgKey where
  | encoder_layers
  | encoder_embed_dim
  | encoder_attention_heads
  | activation_fn
  | pooler_activation_fn
  | dropout
  | pooler_dropout
  | encoder_layers_to_keep
  | encoder_layerdrop
  | spectral_norm_classification_head
  | spectral_nrom_classification_head
  | share_encoder_input_output_embed
  | encoder_learned_pos
  | no_token_positional_embeddings
  | sent_loss
  | normalize_embedding
  | adaptive_input
  | encoder_normalize_before
  | encoder_q_dim
  | encoder_k_dim
  | attention_dropout
  | activation_dropout
  | use_position_embeddings
  | smlp_pos
  | has_ffn
  | kernal_cutoff
  | complex
  | complex_version
  | no_beta
  | norm_type
  | max_lambda
  | norm_after_smlp
  | cls_attn
  | gate
  | freeze
  | sen_rep_type
  | r_max
  | r_min
  | max_phase
  | dt_min
  | dt_max
  | gate_activation_fn
  | decoder_layers
deriving DecidableEq

/-- The argument namespace: `none` = attribute absent. -/
def Args : Type := ArgKey → Option Value

/-- `getattr(args, k, d)`. -/
def getattrD (a : Args) (k : ArgKey) (d : Value) : Value := (a k).getD d

/-- One defaulting statement `args.tgt = getattr(args, src, dflt)`. -/
structure Rule where
  tgt : ArgKey
  src : ArgKey
  dflt : Value
deriving DecidableEq

/-- The ordinary idiom, where the attribute read is the attribute written. -/
def rule (k : ArgKey) (d : Value) : Rule := ⟨k, k, d⟩

/-- Execute one defaulting statement. -/
def applyRule (a : Args) (r : Rule) : Args :=
  Function.update a r.tgt (some (getattrD a r.src r.dflt))

/-- Execute a preset's defaulting statements in source order. -/
def applyDefaults (rs : List Rule) (a : Args) : Args := rs.foldl applyRule a

/-- The empty namespace: no attribute set. -/
def emptyArgs : Args := fun _ => none

/-- `base_architecture` lines 490-501, the statements before the misspelled
one. -/
def base_rules_pre : List Rule :=
  [ rule .encoder_layers (.vInt 12),
    rule .encoder_embed_dim (.vInt 768),
    rule .encoder_attention_heads (.vInt 12),
    rule .activation_fn (.vStr "gelu"),
    rule .pooler_activation_fn (.vStr "tanh"),
    rule .dropout (.vFloat 0.1),
    rule .pooler_dropout (.vFloat 0.0),
    rule .encoder_layers_to_keep .vNone,
    rule .encoder_layerdrop (.vFloat 0.0) ]

/-- Line 502-504 of the source:
`args.spectral_norm_classification_head = getattr(args, "spectral_nrom_classification_head", False)` —
the attribute read is misspelled, the attribute written is not. -/
def spectral_rule : Rule :=
  ⟨.spectral_norm_classification_head, .spectral_nrom_classification_head, .vBool false⟩

/-- `base_architecture` lines 505-531, the statements after the misspelled
one (`activation_fn` and `encoder_learned_pos` are each defaulted a second
time, as in the source). -/
def base_rules_post : List Rule :=
  [ rule .share_encoder_input_output_embed (.vBool true),
    rule .encoder_learned_pos (.vBool false),
    rule .no_token_positional_embeddings (.vBool false),
    rule .sent_loss (.vBool true),
    rule .normalize_embedding (.vBool false),
    rule .adaptive_input (.vBool false),
    rule .encoder_normalize_before (.vBool false),
    rule .encoder_learned_pos (.vBool false),
    rule .encoder_q_dim (.vInt 768),
    rule .encoder_k_dim (.vInt 768),
    rule .attention_dropout (.vFloat 0.0),
    rule .activation_dropout (.vFloat 0.0),
    rule .activation_fn (.vStr "relu"),
    rule .use_position_embeddings (.vBool true),
    rule .smlp_pos (.vStr "before_act"),
    rule .has_ffn (.vBool false),
    rule .kernal_cutoff (.vBool false),
    rule .complex (.vBool false),
    rule .complex_version (.vStr "normal"),
    rule .no_beta (.vBool false),
    rule .norm_type (.vStr "layernorm"),
    rule .max_lambda (.vFloat 0.9999),
    rule .norm_after_smlp (.vBool false),
    rule .cls_attn (.vBool false),
    rule .gate (.vBool false),
    rule .freeze (.vBool false) ]

/-- All statements of `base_architecture` (source lines 489-531), in order. -/
def base_rules : List Rule := base_rules_pre ++ spectral_rule :: base_rules_post

/-- `base_architecture` (source lines 489-531), the root preset registered as
architecture name `smlp_mlm`. -/
def base_architecture (a : Args) : Args := applyDefaults base_rules a

/-- Own statements of `smlp_mlm_complex_architecture` (lines 536-545). -/
def complex_rules : List Rule :=
  [ rule .encoder_normalize_before (.vBool true),
    rule .use_position_embeddings (.vBool false),
    rule .complex (.vBool true),
    rule .r_max (.vFloat 0.9),
    rule .r_min (.vFloat 0.1),
    rule .max_phase (.vFloat 6.28),
    rule .dt_min (.vFloat 0.001),
    rule .dt_max (.vFloat 0.1),
    rule .gate_activation_fn (.vStr "sigmoid") ]

/-- `smlp_mlm_complex_architecture` (lines 535-546), architecture
`smlp_mlm_complex`: own defaults first, then the parent `base_architecture`. -/
def smlp_mlm_complex_architecture (a : Args) : Args :=
  base_architecture (applyDefaults complex_rules a)

/-- Architecture `smlp_mlm_complex_mp` (lines 549-552). -/
def smlp_mlm_complex_architecture_mp (a : Args) : Args :=
  smlp_mlm_complex_architecture (applyDefaults [rule .sen_rep_type (.vStr "mp")] a)

/-- Own statements of `smlp_mlm_complex_architecture_test1` (lines 556-562). -/
def test1_rules : List Rule :=
  [ rule .r_max (.vFloat 0.9),
    rule .r_min (.vFloat 0.1),
    rule .max_phase (.vFloat 6.28),
    rule .sen_rep_type (.vStr "mp"),
    rule .encoder_embed_dim (.vInt 512),
    rule .encoder_k_dim (.vInt 512),
    rule .encoder_layers (.vInt 6) ]

/-- `smlp_mlm_complex_architecture_test1`, architecture `smlp_mlm_complex_QQP`
(lines 555-563). -/
def smlp_mlm_complex_architecture_test1 (a : Args) : Args :=
  smlp_mlm_complex_architecture (applyDefaults test1_rules a)

/-- Own statements of `smlp_mlm_complex_architecture_sst2` (lines 567-573). -/
def sst2_rules : List Rule :=
  [ rule .r_max (.vFloat 0.9),
    rule .r_min (.vFloat 0.1),
    rule .max_phase (.vFloat 6.28),
    rule .sen_rep_type (.vStr "mp"),
    rule .encoder_embed_dim (.vInt 512),
    rule .encoder_k_dim (.vInt 512),
    rule .encoder_layers (.vInt 12) ]

/-- Architecture `smlp_mlm_complex_sst2` (lines 566-574). -/
def smlp_mlm_complex_architecture_sst2 (a : Args) : Args :=
  smlp_mlm_complex_architecture (applyDefaults sst2_rules a)

/-- `smlp_mlm_complex_architecture_qqp_gate`, registered as architecture
`smlp_mlm_complex_sst2_gate` (lines 577-579; the source's function and
architecture names are crossed here). -/
def smlp_mlm_complex_architecture_qqp_gate (a : Args) : Args :=
  smlp_mlm_complex_architecture_sst2 (applyDefaults [rule .gate (.vBool true)] a)

/-- `smlp_mlm_complex_architecture_sst2_gate`, registered as architecture
`smlp_mlm_complex_QQP_gate` (lines 582-584). -/
def smlp_mlm_complex_architecture_sst2_gate (a : Args) : Args :=
  smlp_mlm_complex_architecture_sst2 (applyDefaults [rule .gate (.vBool true)] a)

/-- Own statements of `smlp_mlm_complex_architecture_cola` (lines 588-594). -/
def cola_rules : List Rule :=
  [ rule .r_max (.vFloat 0.9),
    rule .r_min (.vFloat 0.1),
    rule .max_phase (.vFloat 6.28),
    rule .sen_rep_type (.vStr "mp"),
    rule .encoder_embed_dim (.vInt 512),
    rule .encoder_k_dim (.vInt 512),
    rule .encoder_layers (.vInt 3) ]

/-- Architecture `smlp_mlm_complex_cola` (lines 587-595). -/
def smlp_mlm_complex_architecture_cola (a : Args) : Args :=
  smlp_mlm_complex_architecture (applyDefaults cola_rules a)

/-- Architecture `smlp_mlm_complex_cola_gate` (lines 598-600). -/
def smlp_mlm_complex_architecture_cola_gate (a : Args) : Args :=
  smlp_mlm_complex_architecture_cola (applyDefaults [rule .gate (.vBool true)] a)

/-- Own statements of `smlp_mlm_complex_architecture_mrpc` (lines 604-610). -/
def mrpc_rules : List Rule :=
  [ rule .r_max (.vFloat 0.9),
    rule .r_min (.vFloat 0.1),
    rule .max_phase (.vFloat 6.28),
    rule .sen_rep_type (.vStr "mp"),
    rule .encoder_embed_dim (.vInt 512),
    rule .encoder_k_dim (.vInt 512),
    rule .encoder_layers (.vInt 6) ]

/-- Architecture `smlp_mlm_complex_mrpc` (lines 603-611). -/
def smlp_mlm_complex_architecture_mrpc (a : Args) : Args :=
  smlp_mlm_complex_architecture (applyDefaults mrpc_rules a)

/-- Architecture `smlp_mlm_complex_mrpc_gate` (lines 614-616). -/
def smlp_mlm_complex_architecture_mrpc_gate (a : Args) : Args :=
  smlp_mlm_complex_architecture_mrpc (applyDefaults [rule .gate (.vBool true)] a)

/-- `smlp_mlm_complex_architecture_test1_base`, architecture
`smlp_mlm_complex_mnli` (lines 620-622). -/
def smlp_mlm_complex_architecture_test1_base (a : Args) : Args :=
  smlp_mlm_complex_architecture_test1 (applyDefaults [rule .encoder_layers (.vInt 12)] a)

/-- The second Python function also named
`smlp_mlm_complex_architecture_test1_base`, registered as architecture
`smlp_mlm_complex_mnli_gate` (lines 625-628); renamed here because Lean
forbids duplicate names. -/
def smlp_mlm_complex_architecture_test1_base_gate (a : Args) : Args :=
  smlp_mlm_complex_architecture_test1
    (applyDefaults [rule .gate (.vBool true), rule .encoder_layers (.vInt 12)] a)

/-- Architecture `smlp_mlm_complex_gate` (lines 631-634). -/
def smlp_mlm_complex_gate (a : Args) : Args :=
  smlp_mlm_complex_architecture
    (applyDefaults [rule .decoder_layers (.vInt 16), rule .gate (.vBool true)] a)

/-- Own statements of `smlp_mlm_complex_architecture_qnli` (lines 638-644). -/
def qnli_rules : List Rule :=
  [ rule .r_max (.vFloat 0.9),
    rule .r_min (.vFloat 0.1),
    rule .max_phase (.vFloat 6.28),
    rule .sen_rep_type (.vStr "mp"),
    rule .encoder_embed_dim (.vInt 512),
    rule .encoder_k_dim (.vInt 512),
    rule .encoder_layers (.vInt 6) ]

/-- Architecture `smlp_mlm_complex_qnli` (lines 637-645). -/
def smlp_mlm_complex_architecture_qnli (a : Args) : Args :=
  smlp_mlm_complex_architecture (applyDefaults qnli_rules a)

/-- Architecture `smlp_mlm_complex_qnli_gate` (lines 648-651; its parent call
goes to `smlp_mlm_complex_architecture_test1`, as in the source). -/
def smlp_mlm_complex_architecture_qnli_gate (a : Args) : Args :=
  smlp_mlm_complex_architecture_test1 (applyDefaults [rule .gate (.vBool true)] a)

/-- Own statements of `smlp_mlm_complex_architecture_imdb` (lines 655-661). -/
def imdb_rules : List Rule :=
  [ rule .r_max (.vFloat 0.9),
    rule .r_min (.vFloat 0.1),
    rule .max_phase (.vFloat 3.14),
    rule .sen_rep_type (.vStr "mp"),
    rule .encoder_embed_dim (.vInt 512),
    rule .encoder_k_dim (.vInt 512),
    rule .encoder_layers (.vInt 4) ]

/-- Architecture `smlp_mlm_complex_imdb` (lines 654-662). -/
def smlp_mlm_complex_architecture_imdb (a : Args) : Args :=
  smlp_mlm_complex_architecture (applyDefaults imdb_rules a)

/-- Architecture `smlp_mlm_complex_imdb_gate` (lines 665-667). -/
def smlp_mlm_complex_architecture_imdb_gate (a : Args) : Args :=
  smlp_mlm_complex_architecture_imdb (applyDefaults [rule .gate (.vBool true)] a)

/-- The architecture registry: every `register_model_architecture` entry of
`NLU_model.py`, keyed by the registered architecture name.  Resolving a named
preset applies its function to the caller's partial `Args`. -/
def registry : List (String × (Args → Args)) :=
  [ ("smlp_mlm", base_architecture),
    ("smlp_mlm_complex", smlp_mlm_complex_architecture),
    ("smlp_mlm_complex_mp", smlp_mlm_complex_architecture_mp),
    ("smlp_mlm_complex_QQP", smlp_mlm_complex_architecture_test1),
    ("smlp_mlm_complex_sst2", smlp_mlm_complex_architecture_sst2),
    ("smlp_mlm_complex_sst2_gate", smlp_mlm_complex_architecture_qqp_gate),
    ("smlp_mlm_complex_QQP_gate", smlp_mlm_complex_architecture_sst2_gate),
    ("smlp_mlm_complex_cola", smlp_mlm_complex_architecture_cola),
    ("smlp_mlm_complex_cola_gate", smlp_mlm_complex_architecture_cola_gate),
    ("smlp_mlm_complex_mrpc", smlp_mlm_complex_architecture_mrpc),
    ("smlp_mlm_complex_mrpc_gate", smlp_mlm_complex_architecture_mrpc_gate),
    ("smlp_mlm_complex_mnli", smlp_mlm_complex_architecture_test1_base),
    ("smlp_mlm_complex_mnli_gate", smlp_mlm_complex_architecture_test1_base_gate),
    ("smlp_mlm_complex_gate", smlp_mlm_complex_gate),
    ("smlp_mlm_complex_qnli", smlp_mlm_complex_architecture_qnli),
    ("smlp_mlm_complex_qnli_gate", smlp_mlm_complex_architecture_qnli_gate),
    ("smlp_mlm_complex_imdb", smlp_mlm_complex_architecture_imdb),
    ("smlp_mlm_complex_imdb_gate", smlp_mlm_complex_architecture_imdb_gate) ]

/-! ### Resolver lemmas -/

/-- The attributes a rule list assigns. -/
def tgts (rs : List Rule) : List ArgKey := rs.map Rule.tgt

theorem applyRule_notin (a : Args) (r : Rule) (t : ArgKey) (h : t ≠ r.tgt) :
    applyRule a r t = a t := by
  simp [applyRule, Function.update_noteq h]

theorem applyDefaults_notin (rs : List Rule) (a : Args) (t : ArgKey)
    (h : t ∉ tgts rs) : applyDefaults rs a t = a t := by
  induction rs generalizing a with
  | nil => rfl
  | cons r rs ih =>
    simp only [tgts, List.map_cons, List.mem_cons, not_or] at h
    have h1 : applyDefaults (r :: rs) a = applyDefaults rs (applyRule a r) := by
      simp [applyDefaults]
    rw [h1, ih (applyRule a r) (by simpa [tgts] using h.2), applyRule_notin a r t h.1]

theorem applyRule_isSome (a : Args) (r : Rule) (t : ArgKey)
    (h : (a t).isSome) : ((applyRule a r) t).isSome := by
  by_cases ht : t = r.tgt
  · subst ht; simp [applyRule]
  · rw [applyRule_notin a r t ht]; exact h

theorem applyDefaults_isSome (rs : List Rule) (a : Args) (t : ArgKey)
    (h : (a t).isSome) : ((applyDefaults rs a) t).isSome := by
  induction rs generalizing a with
  | nil => exact h
  | cons r rs ih =>
    have h1 : applyDefaults (r :: rs) a = applyDefaults rs (applyRule a r) := by
      simp [applyDefaults]
    rw [h1]
    exact ih (applyRule a r) (applyRule_isSome a r t h)

theorem applyDefaults_tgt_isSome (rs : List Rule) (a : Args) (t : ArgKey)
    (h : t ∈ tgts rs) : ((applyDefaults rs a) t).isSome := by
  induction rs generalizing a with
  | nil => simp [tgts] at h
  | cons r rs ih =>
    have h1 : applyDefaults (r :: rs) a = applyDefaults rs (applyRule a r) := by
      simp [applyDefaults]
    rw [h1]
    simp only [tgts, List.map_cons, List.mem_cons] at h
    rcases h with h | h
    · apply applyDefaults_isSome
      subst h; simp [applyRule]
    · exact ih (applyRule a r) (by simpa [tgts] using h)

theorem applyDefaults_stable (rs : List Rule) (a : Args)
    (hplain : ∀ r ∈ rs, r.src = r.tgt)
    (hsome : ∀ t ∈ tgts rs, (a t).isSome) : applyDefaults rs a = a := by
  induction rs with
  | nil => rfl
  | cons r rs ih =>
    have hr : applyRule a r = a := by
      obtain ⟨v, hv⟩ := Option.isSome_iff_exists.mp
        (hsome r.tgt (by simp [tgts]))
      have hsrc := hplain r (by simp)
      have : some (getattrD a r.src r.dflt) = a r.tgt := by
        rw [hsrc, getattrD, hv]; rfl
      rw [applyRule, this, Function.update_eq_self]
    have h1 : applyDefaults (r :: rs) a = applyDefaults rs (applyRule a r) := by
      simp [applyDefaults]
    rw [h1, hr]
    exact ih (fun x hx => hplain x (by simp [hx])) (fun t ht => hsome t (by simp [tgts] at ht ⊢; right; exact ht))

theorem applyDefaults_append (l1 l2 : List Rule) (a : Args) :
    applyDefaults (l1 ++ l2) a = applyDefaults l2 (applyDefaults l1 a) := by
  simp [applyDefaults, List.foldl_append]

/-- What `base_architecture` leaves in `spectral_norm_classification_head`:
the value of the misspelled attribute if present, else `False` — the
caller-supplied value of the correctly spelled attribute is discarded. -/
theorem base_spectral (a : Args) :
    base_architecture a .spectral_norm_classification_head =
      some (getattrD a .spectral_nrom_classification_head (.vBool false)) := by
  have h1 : base_architecture a =
      applyDefaults base_rules_post
        (applyRule (applyDefaults base_rules_pre a) spectral_rule) := by
    rw [base_architecture, base_rules, applyDefaults_append]
    congr 1
  rw [h1, applyDefaults_notin _ _ _ (by decide)]
  have h2 : applyRule (applyDefaults base_rules_pre a) spectral_rule
      .spectral_norm_classification_head =
      some (getattrD (applyDefaults base_rules_pre a)
        .spectral_nrom_classification_head (.vBool false)) := by
    simp [applyRule, spectral_rule]
  rw [h2, getattrD, getattrD, applyDefaults_notin _ _ _ (by decide)]

theorem base_nrom (a : Args) :
    base_architecture a .spectral_nrom_classification_head =
      a .spectral_nrom_classification_head := by
  rw [base_architecture, applyDefaults_notin _ _ _ (by decide)]

/-- The property every preset function is shown to have: re-resolving its own
output changes nothing, and it never unsets a set attribute. -/
def IdemPres (f : Args → Args) : Prop :=
  (∀ a, f (f a) = f a) ∧ ∀ a t, (a t).isSome → ((f a) t).isSome

theorem base_tgt_isSome (a : Args) (t : ArgKey) (h : t ∈ tgts base_rules) :
    (base_architecture a t).isSome := applyDefaults_tgt_isSome _ a t h

theorem idem_base : IdemPres base_architecture := by
  constructor
  · intro a
    have hsome : ∀ t ∈ tgts base_rules, ((base_architecture a) t).isSome :=
      fun t ht => base_tgt_isSome a t ht
    have htgts : tgts base_rules =
        tgts base_rules_pre ++ spectral_rule.tgt :: tgts base_rules_post := by
      simp [tgts, base_rules]
    have hsub_pre : ∀ t ∈ tgts base_rules_pre, t ∈ tgts base_rules := by
      intro t ht; rw [htgts]; exact List.mem_append_left _ ht
    have hsub_post : ∀ t ∈ tgts base_rules_post, t ∈ tgts base_rules := by
      intro t ht; rw [htgts]; exact List.mem_append_right _ (List.mem_cons_of_mem _ ht)
    have h1 : base_architecture (base_architecture a) =
        applyDefaults base_rules_post
          (applyRule (applyDefaults base_rules_pre (base_architecture a)) spectral_rule) := by
      rw [base_architecture, base_rules, applyDefaults_append]; congr 1
    have h2 : applyDefaults base_rules_pre (base_architecture a) = base_architecture a :=
      applyDefaults_stable _ _ (by decide) (fun t ht => hsome t (hsub_pre t ht))
    have h3 : applyRule (base_architecture a) spectral_rule = base_architecture a := by
      have hv : some (getattrD (base_architecture a)
          .spectral_nrom_classification_head (.vBool false)) =
          base_architecture a .spectral_norm_classification_head := by
        rw [base_spectral, getattrD, getattrD, base_nrom]
      rw [applyRule, spectral_rule]
      exact hv ▸ Function.update_eq_self _ _
    have h4 : applyDefaults base_rules_post (base_architecture a) = base_architecture a :=
      applyDefaults_stable _ _ (by decide) (fun t ht => hsome t (hsub_post t ht))
    rw [h1, h2, h3, h4]
  · intro a t h
    exact applyDefaults_isSome _ a t h

theorem IdemPres_comp {f : Args → Args} (hf : IdemPres f) (rs : List Rule)
    (hplain : ∀ r ∈ rs, r.src = r.tgt) :
    IdemPres (fun a => f (applyDefaults rs a)) := by
  constructor
  · intro a
    have h1 : applyDefaults rs (f (applyDefaults rs a)) = f (applyDefaults rs a) := by
      apply applyDefaults_stable rs _ hplain
      intro t ht
      exact hf.2 _ _ (applyDefaults_tgt_isSome rs a t ht)
    simp only [h1, hf.1]
  · intro a t h
    exact hf.2 _ _ (applyDefaults_isSome rs a t h)

theorem idem_complex : IdemPres smlp_mlm_complex_architecture :=
  IdemPres_comp idem_base complex_rules (by decide)

theorem idem_mp : IdemPres smlp_mlm_complex_architecture_mp :=
  IdemPres_comp idem_complex _ (by decide)

theorem idem_test1 : IdemPres smlp_mlm_complex_architecture_test1 :=
  IdemPres_comp idem_complex test1_rules (by decide)

theorem idem_sst2 : IdemPres smlp_mlm_complex_architecture_sst2 :=
  IdemPres_comp idem_complex sst2_rules (by decide)

theorem idem_qqp_gate : IdemPres smlp_mlm_complex_architecture_qqp_gate :=
  IdemPres_comp idem_sst2 _ (by decide)

theorem idem_sst2_gate : IdemPres smlp_mlm_complex_architecture_sst2_gate :=
  IdemPres_comp idem_sst2 _ (by decide)

theorem idem_cola : IdemPres smlp_mlm_complex_architecture_cola :=
  IdemPres_comp idem_complex cola_rules (by decide)

theorem idem_cola_gate : IdemPres smlp_mlm_complex_architecture_cola_gate :=
  IdemPres_comp idem_cola _ (by decide)

theorem idem_mrpc : IdemPres smlp_mlm_complex_architecture_mrpc :=
  IdemPres_comp idem_complex mrpc_rules (by decide)

theorem idem_mrpc_gate : IdemPres smlp_mlm_complex_architecture_mrpc_gate :=
  IdemPres_comp idem_mrpc _ (by decide)

theorem idem_test1_base : IdemPres smlp_mlm_complex_architecture_test1_base :=
  IdemPres_comp idem_test1 _ (by decide)

theorem idem_test1_base_gate : IdemPres smlp_mlm_complex_architecture_test1_base_gate :=
  IdemPres_comp idem_test1 _ (by decide)

theorem idem_gate : IdemPres smlp_mlm_complex_gate :=
  IdemPres_comp idem_complex _ (by decide)

theorem idem_qnli : IdemPres smlp_mlm_complex_architecture_qnli :=
  IdemPres_comp idem_complex qnli_rules (by decide)

theorem idem_qnli_gate : IdemPres smlp_mlm_complex_architecture_qnli_gate :=
  IdemPres_comp idem_test1 _ (by decide)

theorem idem_imdb : IdemPres smlp_mlm_complex_architecture_imdb :=
  IdemPres_comp idem_complex imdb_rules (by decide)

theorem idem_imdb_gate : IdemPres smlp_mlm_complex_architecture_imdb_gate :=
  IdemPres_comp idem_imdb _ (by decide)

/-! ### Claims C1 and C4 -/

/-- A caller-supplied partial configuration that sets only
`spectral_norm_classification_head = True` (as `--spectral-norm-classification-head`
on the source's CLI would). -/
def callerArgs : Args := fun k =>
  match k with
  | .spectral_norm_classification_head => some (.vBool true)
  | _ => none

/-- C1: the claim says resolution never overwrites a caller-supplied value,
but `base_architecture` (the root preset every registered preset ends in)
assigns `spectral_norm_classification_head` from the misspelled attribute
`spectral_nrom_classification_head` (source line 502-504), so a
caller-supplied `True` is overwritten with the default `False`. -/
theorem spectral_norm_caller_value_overwritten :
    callerArgs .spectral_norm_classification_head = some (.vBool true) ∧
    base_architecture callerArgs .spectral_norm_classification_head =
      some (.vBool false) := by
  constructor
  · rfl
  · rw [base_spectral]; rfl

/-- Every key of `ArgKey`, in declaration order. -/
def allArgKeys : List ArgKey :=
  [ .encoder_layers, .encoder_embed_dim, .encoder_attention_heads,
    .activation_fn, .pooler_activation_fn, .dropout, .pooler_dropout,
    .encoder_layers_to_keep, .encoder_layerdrop,
    .spectral_norm_classification_head, .spectral_nrom_classification_head,
    .share_encoder_input_output_embed, .encoder_learned_pos,
    .no_token_positional_embeddings, .sent_loss, .normalize_embedding,
    .adaptive_input, .encoder_normalize_before, .encoder_q_dim,
    .encoder_k_dim, .attention_dropout, .activation_dropout,
    .use_position_embeddings, .smlp_pos, .has_ffn, .kernal_cutoff,
    .complex, .complex_version, .no_beta, .norm_type, .max_lambda,
    .norm_after_smlp, .cls_attn, .gate, .freeze, .sen_rep_type,
    .r_max, .r_min, .max_phase, .dt_min, .dt_max, .gate_activation_fn,
    .decoder_layers ]

/-- The configuration options proper: every attribute except the misspelled
lookup name, which is not an option of the schema (no preset assigns it and
the CLI does not declare it). -/
def optionKeys : List ArgKey :=
  allArgKeys.filter (fun k => k != .spectral_nrom_classification_head)

/-- A record with every option already set (and the caller's
`spectral_norm_classification_head = True` among them). -/
def fullArgs : Args := fun k =>
  match k with
  | .spectral_nrom_classification_head => none
  | .spectral_norm_classification_head => some (.vBool true)
  | _ => some (.vInt 0)

/-- C4 counterexample: a record with every option already set that resolution
does change — `base_architecture` rewrites `spectral_norm_classification_head`
from the (absent) misspelled attribute, so the claim's "any record with every
option already set" case is false. -/
theorem resolve_changes_full_record :
    (∀ k ∈ optionKeys, (fullArgs k).isSome) ∧
    base_architecture fullArgs ≠ fullArgs := by
  constructor
  · decide
  · intro h
    have h2 := congrFun h ArgKey.spectral_norm_classification_head
    rw [base_spectral] at h2
    exact absurd h2 (by decide)

/-- C4 (amended): for every registered preset, re-resolving the record
produced by a resolution changes nothing — `f (f a) = f a` for every partial
configuration `a`. -/
theorem resolve_reresolve_fixed :
    ∀ p ∈ registry, ∀ a : Args, p.2 (p.2 a) = p.2 a := by
  intro p hp a
  fin_cases hp
  · exact idem_base.1 a
  · exact idem_complex.1 a
  · exact idem_mp.1 a
  · exact idem_test1.1 a
  · exact idem_sst2.1 a
  · exact idem_qqp_gate.1 a
  · exact idem_sst2_gate.1 a
  · exact idem_cola.1 a
  · exact idem_cola_gate.1 a
  · exact idem_mrpc.1 a
  · exact idem_mrpc_gate.1 a
  · exact idem_test1_base.1 a
  · exact idem_test1_base_gate.1 a
  · exact idem_gate.1 a
  · exact idem_qnli.1 a
  · exact idem_qnli_gate.1 a
  · exact idem_imdb.1 a
  · exact idem_imdb_gate.1 a

/-- Witness for C4's theorem at the root preset and the empty partial
configuration. -/
theorem resolve_reresolve_fixed_witness :
    (("smlp_mlm", base_architecture) ∈ registry) ∧
    base_architecture (base_architecture emptyArgs) = base_architecture emptyArgs :=
  ⟨by simp [registry],
   resolve_reresolve_fixed ("smlp_mlm", base_architecture) (by simp [registry]) emptyArgs⟩

/-! ### State-dict migration: data model

Python strings are embedded as character lists, tensors as a shape plus an
opaque payload identifier (migration only ever inspects `.size(0)`), and
Python dicts as association lists with insertion order, replace-in-place
assignment and key deletion, matching `dict` semantics. -/

/-- A Python string (a dotted parameter key, a head name, ...). -/
abbrev Key := List Char

/-- A tensor as migration sees it: its shape, and an opaque payload
identifier standing for its numeric contents (never inspected or changed by
the code under verification). -/
structure Tensor where
  shape : List Nat
  data : Nat
deriving DecidableEq

/-- Exceptions the migration code can raise. -/
inductive PyErr where
  | keyError : Key → PyErr
  | indexError : PyErr
deriving DecidableEq

instance exceptDecEq {ε α : Type} [DecidableEq ε] [DecidableEq α] :
    DecidableEq (Except ε α) := fun x y =>
  match x, y with
  | .ok a, .ok b =>
      if h : a = b then isTrue (by rw [h])
      else isFalse (by intro hc; cases hc; exact h rfl)
  | .error e, .error f =>
      if h : e = f then isTrue (by rw [h])
      else isFalse (by intro hc; cases hc; exact h rfl)
  | .ok _, .error _ => isFalse (by intro hc; cases hc)
  | .error _, .ok _ => isFalse (by intro hc; cases hc)

/-- `t.size(0)`: raises `IndexError` on a rank-0 tensor. -/
def size0 (t : Tensor) : Except PyErr Nat :=
  match t.shape with
  | [] => Except.error .indexError
  | d :: _ => Except.ok d

/-- `d[q]` as an option (dict lookup without raising). -/
def lookupA {α : Type} : List (Key × α) → Key → Option α
  | [], _ => none
  | p :: rest, q => if q = p.1 then some p.2 else lookupA rest q

/-- `q in d`. -/
def containsA {α : Type} (l : List (Key × α)) (q : Key) : Bool :=
  (lookupA l q).isSome

/-- `d[k] = v`: replace in place when `k` is present, else append (Python
dicts preserve insertion order). -/
def insertA {α : Type} (l : List (Key × α)) (k : Key) (v : α) : List (Key × α) :=
  if containsA l k then l.map (fun p => if p.1 = k then (k, v) else p)
  else l ++ [(k, v)]

/-- `del d[k]`. -/
def eraseA {α : Type} (l : List (Key × α)) (k : Key) : List (Key × α) :=
  l.filter (fun p => decide (p.1 ≠ k))

/-- `list(d.keys())`. -/
def keysA {α : Type} (l : List (Key × α)) : List Key := l.map Prod.fst

/-- A persisted parameter blob (`state_dict`). -/
abbrev StateDict := List (Key × Tensor)

/-- `d[k]` on a state dict: raises `KeyError` when absent. -/
def getItem (sd : StateDict) (k : Key) : Except PyErr Tensor :=
  match lookupA sd k with
  | some v => Except.ok v
  | none => Except.error (.keyError k)

/-- `s.split(".")[0]`: the characters before the first dot. -/
def upto_dot : Key → Key
  | [] => []
  | c :: rest => if c = '.' then [] else c :: upto_dot rest

/-- A classification head as the migration engine sees it: the parameter
tensors of its two linear layers.  `dense = Linear(input_dim, inner_dim)`
stores a weight of shape `[inner_dim, input_dim]` and a bias of shape
`[inner_dim]`; `out_proj = Linear(inner_dim, num_classes)` likewise.  The
quant-noise wrapper (`p = 0`) and the spectral-norm wrapper (`False`) are
identities at the model's resolved defaults and are not modelled. -/
structure SMLPClassificationHead where
  dense_weight : Tensor
  dense_bias : Tensor
  out_proj_weight : Tensor
  out_proj_bias : Tensor
deriving DecidableEq

/-- `head.dense.out_features` (an `nn.Linear`'s `out_features` is the first
dimension of its weight). -/
def SMLPClassificationHead.dense_out_features (h : SMLPClassificationHead) : Nat :=
  h.dense_weight.shape.headD 0

/-- `head.out_proj.out_features`. -/
def SMLPClassificationHead.out_proj_out_features (h : SMLPClassificationHead) : Nat :=
  h.out_proj_weight.shape.headD 0

/-- `SMLPClassificationHead(...)` (source lines 351-377): build a head with
freshly initialized parameters.  `fresh` is the state of the random
initialization source; the four payload identifiers it yields stand for the
four freshly drawn parameter tensors. -/
def SMLPClassificationHead.build (input_dim inner_dim num_classes fresh : Nat) :
    SMLPClassificationHead :=
  { dense_weight := ⟨[inner_dim, input_dim], fresh⟩,
    dense_bias := ⟨[inner_dim], fresh + 1⟩,
    out_proj_weight := ⟨[num_classes, inner_dim], fresh + 2⟩,
    out_proj_bias := ⟨[num_classes], fresh + 3⟩ }

/-- The state of a `SMLP_MLM_Model` that head registration and state-dict
migration read and write: the resolved arguments they consult, the head
collection (an `nn.ModuleDict`, insertion-ordered), and the random
initialization source. -/
structure Model where
  encoder_embed_dim : Nat
  load_checkpoint_heads : Bool
  classification_heads : List (Key × SMLPClassificationHead)
  fresh : Nat
deriving DecidableEq

/-- `register_classification_head` (source lines 221-245).  Returns the
updated model and whether the re-registration warning was logged.  The
Python defaults `num_classes=None, inner_dim=None` are omitted: every call
site in the repository supplies both; `inner_dim or embed_dim` maps falsy
`0` to the embedding dimension. -/
def register_classification_head (m : Model) (name : Key)
    (num_classes inner_dim : Nat) : Model × Bool :=
  let warned :=
    match lookupA m.classification_heads name with
    | some prev =>
        decide (num_classes ≠ prev.out_proj_out_features ∨
                inner_dim ≠ prev.dense_out_features)
    | none => false
  let innerEff := if inner_dim = 0 then m.encoder_embed_dim else inner_dim
  ({ m with
      classification_heads := insertA m.classification_heads name
        (SMLPClassificationHead.build m.encoder_embed_dim innerEff num_classes m.fresh),
      fresh := m.fresh + 4 },
   warned)

/-- The string constant `"decoder"`. -/
def kDecoder : Key := ['d', 'e', 'c', 'o', 'd', 'e', 'r']

/-- The string constant `"encoder"`. -/
def kEncoder : Key := ['e', 'n', 'c', 'o', 'd', 'e', 'r']

/-- The string constant `"classification_heads."`. -/
def kClsNS : Key :=
  ['c', 'l', 'a', 's', 's', 'i', 'f', 'i', 'c', 'a', 't', 'i', 'o', 'n', '_',
   'h', 'e', 'a', 'd', 's', '.']

/-- The string constant `"."`. -/
def kDot : Key := ['.']

/-- The suffix `".dense.weight"`. -/
def kDenseW : Key :=
  ['.', 'd', 'e', 'n', 's', 'e', '.', 'w', 'e', 'i', 'g', 'h', 't']

/-- The suffix `".dense.bias"`. -/
def kDenseB : Key :=
  ['.', 'd', 'e', 'n', 's', 'e', '.', 'b', 'i', 'a', 's']

/-- The suffix `".out_proj.weight"`. -/
def kOutProjW : Key :=
  ['.', 'o', 'u', 't', '_', 'p', 'r', 'o', 'j', '.', 'w', 'e', 'i', 'g', 'h', 't']

/-- The suffix `".out_proj.bias"`. -/
def kOutProjB : Key :=
  ['.', 'o', 'u', 't', '_', 'p', 'r', 'o', 'j', '.', 'b', 'i', 'a', 's']

/-- The rename loop of `upgrade_state_dict_named` (source lines 256-260):
for each key of the snapshot `ks` that starts with `prefix + "decoder"`,
insert the value under the rewritten `prefix + "encoder"` key, then delete
the legacy key.  (The `none` branch cannot be reached from `keysA sd`:
rewritten keys never carry the decoder prefix, so a snapshot key's entry is
still present when its turn comes.) -/
def renameStep (pfx : Key) (acc : StateDict) (k : Key) : StateDict :=
  if (pfx ++ kDecoder).isPrefixOf k then
    match lookupA acc k with
    | some v =>
        eraseA (insertA acc (pfx ++ kEncoder ++ k.drop (pfx ++ kDecoder).length) v) k
    | none => acc
  else acc

def renameLoop (pfx : Key) (ks : List Key) (sd : StateDict) : StateDict :=
  ks.foldl (renameStep pfx) sd

/-- The head-reconciliation loop of `upgrade_state_dict_named` (source lines
265-306): walk the keys of the (already renamed) blob; for each key under the
classification-heads namespace read the persisted head's `num_classes` and
`inner_dim` from `out_proj.weight` and `dense.weight` (raising `KeyError` /
`IndexError` exactly where Python would), then either register an unknown
head (when `load_checkpoint_heads` is set) or record the key for deletion.
Returns the updated model and `keys_to_delete`. -/
def hrStep (pfx : Key) (sd : StateDict) (st : Model × List Key) (k : Key) :
    Except PyErr (Model × List Key) := do
    if (pfx ++ kClsNS).isPrefixOf k then
      let head_name := upto_dot (k.drop (pfx ++ kClsNS).length)
      let tOut ← getItem sd (pfx ++ kClsNS ++ head_name ++ kOutProjW)
      let num_classes ← size0 tOut
      let tDense ← getItem sd (pfx ++ kClsNS ++ head_name ++ kDenseW)
      let inner_dim ← size0 tDense
      if st.1.load_checkpoint_heads then
        if containsA st.1.classification_heads head_name then
          pure st
        else
          pure ((register_classification_head st.1 head_name num_classes inner_dim).1, st.2)
      else
        match lookupA st.1.classification_heads head_name with
        | none => pure (st.1, st.2 ++ [k])
        | some cur =>
          if num_classes ≠ cur.out_proj_out_features ∨
              inner_dim ≠ cur.dense_out_features then
            pure (st.1, st.2 ++ [k])
          else
            pure st
    else
      pure st

def headReconcile (pfx : Key) (sd : StateDict) (m : Model) :
    Except PyErr (Model × List Key) :=
  (keysA sd).foldlM (hrStep pfx sd) (m, ([] : List Key))

/-- `self.classification_heads.state_dict()`: for each head, in collection
order, its four parameter tensors under `"<name>.dense.weight"`,
`"<name>.dense.bias"`, `"<name>.out_proj.weight"`, `"<name>.out_proj.bias"`. -/
def headsStateDict (heads : List (Key × SMLPClassificationHead)) :
    List (Key × Tensor) :=
  heads.foldr (fun p acc =>
    (p.1 ++ kDenseW, p.2.dense_weight) ::
    (p.1 ++ kDenseB, p.2.dense_bias) ::
    (p.1 ++ kOutProjW, p.2.out_proj_weight) ::
    (p.1 ++ kOutProjB, p.2.out_proj_bias) :: acc) []

/-- The backfill loop of `upgrade_state_dict_named` (source lines 312-317):
copy every current-head parameter whose key is absent into the blob. -/
def bfStep (pfx : Key) (acc : StateDict) (p : Key × Tensor) : StateDict :=
  if containsA acc (pfx ++ kClsNS ++ p.1) then acc
  else insertA acc (pfx ++ kClsNS ++ p.1) p.2

def backfill (pfx : Key) (m : Model) (sd : StateDict) : StateDict :=
  (headsStateDict m.classification_heads).foldl (bfStep pfx) sd

/-- `for k in keys_to_delete: del state_dict[k]` (source lines 307-308). -/
def eraseAll (ds : List Key) (sd : StateDict) : StateDict :=
  ds.foldl (fun acc k => eraseA acc k) sd

/-- `upgrade_state_dict_named` (source lines 252-317): namespace rename, head
reconciliation, deferred deletions, backfill.  Returns the updated model, the
migrated blob and `keys_to_delete` (the dropped keys, logged one by one in
the source).  The inherited `super().upgrade_state_dict_named` call upgrades
children modules; modelled from the spec: the spec's migration consists of
the three steps only ("unrecognized keys outside the patterns below pass
through unchanged"), so the inherited children upgrade is the identity. -/
def upgrade_state_dict_named (m : Model) (state_dict : StateDict) (name : Key) :
    Except PyErr (Model × StateDict × List Key) := do
  let pfx := if name ≠ [] then name ++ kDot else []
  let sd1 := renameLoop pfx (keysA state_dict) state_dict
  let st ← headReconcile pfx sd1 m
  let sd2 := eraseAll st.2 sd1
  let sd3 := backfill pfx st.1 sd2
  pure (st.1, sd3, st.2)

/-! ### Association-list lemmas -/

theorem lookupA_append_some {α : Type} (l1 l2 : List (Key × α)) (q : Key) (v : α)
    (h : lookupA l1 q = some v) : lookupA (l1 ++ l2) q = some v := by
  induction l1 with
  | nil => simp [lookupA] at h
  | cons p rest ih =>
    by_cases hq : q = p.1
    · simpa [lookupA, hq] using h
    · simp only [List.cons_append, lookupA, if_neg hq] at h ⊢
      exact ih h

theorem lookupA_append_none {α : Type} (l1 l2 : List (Key × α)) (q : Key)
    (h : lookupA l1 q = none) : lookupA (l1 ++ l2) q = lookupA l2 q := by
  induction l1 with
  | nil => rfl
  | cons p rest ih =>
    by_cases hq : q = p.1
    · simp [lookupA, hq] at h
    · simp only [List.cons_append, lookupA, if_neg hq] at h ⊢
      exact ih h

theorem lookupA_map_replace {α : Type} (l : List (Key × α)) (k : Key) (v : α) :
    lookupA (l.map (fun p => if p.1 = k then (k, v) else p)) k =
      if containsA l k then some v else none := by
  induction l with
  | nil => simp [lookupA, containsA]
  | cons p rest ih =>
    by_cases hk : p.1 = k
    · simp [lookupA, hk, containsA]
    · have hne : k ≠ p.1 := fun h => hk h.symm
      simp only [List.map_cons, if_neg hk, lookupA, if_neg hne, ih, containsA]

theorem lookupA_map_replace_ne {α : Type} (l : List (Key × α)) (k : Key) (v : α)
    (q : Key) (hq : q ≠ k) :
    lookupA (l.map (fun p => if p.1 = k then (k, v) else p)) q = lookupA l q := by
  induction l with
  | nil => rfl
  | cons p rest ih =>
    by_cases hk : p.1 = k
    · have hqp : q ≠ p.1 := fun h => hq (h.trans hk)
      simp only [List.map_cons, if_pos hk, lookupA, if_neg hq, if_neg hqp, ih]
    · simp only [List.map_cons, if_neg hk, lookupA, ih]

theorem lookupA_insertA_self {α : Type} (l : List (Key × α)) (k : Key) (v : α) :
    lookupA (insertA l k v) k = some v := by
  unfold insertA
  split
  next hc => rw [lookupA_map_replace, if_pos hc]
  next hc =>
    have hnone : lookupA l k = none := by
      cases h : lookupA l k with
      | none => rfl
      | some w => exact absurd (by simp [containsA, h]) hc
    rw [lookupA_append_none _ _ _ hnone]
    simp [lookupA]

theorem lookupA_insertA_ne {α : Type} (l : List (Key × α)) (k : Key) (v : α)
    (q : Key) (hq : q ≠ k) : lookupA (insertA l k v) q = lookupA l q := by
  unfold insertA
  split
  next => exact lookupA_map_replace_ne l k v q hq
  next =>
    cases hl : lookupA l q with
    | some w => exact lookupA_append_some _ _ _ _ hl
    | none => rw [lookupA_append_none _ _ _ hl]; simp [lookupA, hq]

theorem lookupA_eraseA_self {α : Type} (l : List (Key × α)) (k : Key) :
    lookupA (eraseA l k) k = none := by
  induction l with
  | nil => rfl
  | cons p rest ih =>
    rw [eraseA, List.filter_cons]
    by_cases hk : p.1 = k
    · rw [if_neg (by simp [hk])]
      exact ih
    · rw [if_pos (by simp [hk]), lookupA, if_neg (fun h => hk h.symm)]
      exact ih

theorem lookupA_eraseA_ne {α : Type} (l : List (Key × α)) (k q : Key)
    (hq : q ≠ k) : lookupA (eraseA l k) q = lookupA l q := by
  induction l with
  | nil => rfl
  | cons p rest ih =>
    rw [eraseA, List.filter_cons]
    by_cases hk : p.1 = k
    · rw [if_neg (by simp [hk])]
      have hqp : q ≠ p.1 := fun h => hq (h.trans hk)
      rw [show lookupA (p :: rest) q = lookupA rest q by rw [lookupA, if_neg hqp]]
      exact ih
    · rw [if_pos (by simp [hk])]
      by_cases hqp : q = p.1
      · rw [lookupA, if_pos hqp, lookupA, if_pos hqp]
      · rw [lookupA, if_neg hqp, lookupA, if_neg hqp]
        exact ih

theorem mem_keysA {α : Type} (l : List (Key × α)) (q : Key) :
    q ∈ keysA l ↔ (lookupA l q).isSome := by
  induction l with
  | nil => simp [keysA, lookupA]
  | cons p rest ih =>
    have hfold : List.map Prod.fst rest = keysA rest := rfl
    rw [keysA, List.map_cons, List.mem_cons, hfold, ih, lookupA]
    by_cases hq : q = p.1
    · simp [hq]
    · simp [hq]

theorem keysA_map_replace {α : Type} (l : List (Key × α)) (k : Key) (v : α) :
    keysA (l.map (fun p => if p.1 = k then (k, v) else p)) = keysA l := by
  unfold keysA
  rw [List.map_map]
  apply List.map_congr_left
  intro p _
  by_cases hk : p.1 = k
  · simp [Function.comp, hk]
  · simp [Function.comp, hk]

theorem keysA_insertA {α : Type} (l : List (Key × α)) (k : Key) (v : α) :
    keysA (insertA l k v) = if containsA l k then keysA l else keysA l ++ [k] := by
  unfold insertA
  split
  next => exact keysA_map_replace l k v
  next => simp [keysA]

theorem nodup_keysA_insertA {α : Type} (l : List (Key × α)) (k : Key) (v : α)
    (h : (keysA l).Nodup) : (keysA (insertA l k v)).Nodup := by
  rw [keysA_insertA]
  split
  next => exact h
  next hc =>
    rw [List.nodup_append]
    refine ⟨h, List.nodup_singleton k, ?_⟩
    intro x hx hx2
    simp only [List.mem_singleton] at hx2
    subst hx2
    rw [mem_keysA] at hx
    exact hc hx

theorem nodup_keysA_eraseA {α : Type} (l : List (Key × α)) (k : Key)
    (h : (keysA l).Nodup) : (keysA (eraseA l k)).Nodup := by
  have hs : (eraseA l k).Sublist l := List.filter_sublist l
  exact (hs.map Prod.fst).nodup h

/-! ### Prefix lemmas on character lists -/

theorem not_prefix_of_head_ne {a b : Char} {t1 t2 q : Key} (hab : a ≠ b)
    (h1 : (a :: t1).isPrefixOf q) (h2 : (b :: t2).isPrefixOf q) : False := by
  rw [List.isPrefixOf_iff_prefix] at h1 h2
  obtain ⟨u1, hu1⟩ := h1
  obtain ⟨u2, hu2⟩ := h2
  have h := hu1.trans hu2.symm
  simp only [List.cons_append] at h
  injection h with hh _
  exact hab hh

theorem prefixOf_append (l1 l2 : Key) : l1.isPrefixOf (l1 ++ l2) := by
  rw [List.isPrefixOf_iff_prefix]
  exact List.prefix_append l1 l2

theorem prefix_restore {p k : Key} (h : p.isPrefixOf k) :
    p ++ k.drop p.length = k := by
  rw [List.isPrefixOf_iff_prefix] at h
  obtain ⟨t, rfl⟩ := h
  rw [List.drop_left]

theorem drop_append_self (p r : Key) : (p ++ r).drop p.length = r :=
  List.drop_left p r

/-! ### Characterizing the namespace-rename step (top-level, `name = ""`) -/

/-- Whether a key starts with `"decoder"`. -/
def decP (k : Key) : Bool := kDecoder.isPrefixOf k

/-- Whether a key starts with `"encoder"`. -/
def encP (k : Key) : Bool := kEncoder.isPrefixOf k

/-- The legacy `"decoder"`-prefixed twin of an `"encoder"`-prefixed key. -/
def decTwin (q : Key) : Key := kDecoder ++ q.drop kEncoder.length

/-- The rewritten key of a `"decoder"`-prefixed key. -/
def encOf (k : Key) : Key := kEncoder ++ k.drop kDecoder.length

theorem dec_enc_not_both (q : Key) (h1 : decP q = true) (h2 : encP q = true) :
    False :=
  not_prefix_of_head_ne (a := 'd') (b := 'e') (by decide) h1 h2

theorem decP_decTwin (q : Key) : decP (decTwin q) = true :=
  prefixOf_append kDecoder (q.drop kEncoder.length)

theorem encP_encOf (k : Key) : encP (encOf k) = true :=
  prefixOf_append kEncoder (k.drop kDecoder.length)

theorem decTwin_encOf (k : Key) (h : decP k = true) : decTwin (encOf k) = k := by
  unfold decTwin encOf
  rw [drop_append_self]
  exact prefix_restore h

theorem eq_encOf_of_decTwin_eq (q k : Key) (henc : encP q = true)
    (h : decTwin q = k) : q = encOf k := by
  unfold decTwin at h
  unfold encOf
  rw [← h, drop_append_self]
  exact (prefix_restore henc).symm

/-- The pointwise effect of the rename loop after processing the keys in
`done`: decoder keys processed are gone, encoder keys whose legacy twin was
processed hold the twin's original value, all else is untouched. -/
def renameView (sd0 : StateDict) (done : List Key) (q : Key) : Option Tensor :=
  if decP q ∧ q ∈ done then none
  else if encP q ∧ decTwin q ∈ done then lookupA sd0 (decTwin q)
  else lookupA sd0 q

theorem renameView_snoc (sd0 : StateDict) (done : List Key) (k q : Key)
    (hq : decP q = true → q ≠ k) (htw : encP q = true → decTwin q ≠ k) :
    renameView sd0 (done ++ [k]) q = renameView sd0 done q := by
  by_cases hdq : decP q = true
  · have henc : ¬(encP q = true) := fun h => dec_enc_not_both q hdq h
    by_cases hmem : q ∈ done
    · simp [renameView, hdq, hmem]
    · have hqk := hq hdq
      simp [renameView, hdq, henc, hmem, hqk]
  · by_cases henq : encP q = true
    · by_cases htm : decTwin q ∈ done
      · simp [renameView, hdq, henq, htm]
      · have htwk := htw henq
        simp [renameView, hdq, henq, htm, htwk]
    · simp [renameView, hdq, henq]

theorem renameLoop_aux (sd0 : StateDict) (ks : List Key) :
    ∀ (done : List Key) (acc : StateDict),
      (done ++ ks).Nodup →
      (∀ k ∈ ks, containsA sd0 k = true) →
      (∀ q, lookupA acc q = renameView sd0 done q) →
      ∀ q, lookupA (renameLoop [] ks acc) q = renameView sd0 (done ++ ks) q := by
  induction ks with
  | nil =>
    intro done acc _ _ hI q
    simpa [renameLoop] using hI q
  | cons k rest ih =>
    intro done acc hnd hsub hI q
    have hkdone : k ∉ done := by
      rcases List.nodup_append.mp hnd with ⟨_, _, hdisj⟩
      intro hc
      exact hdisj hc (List.mem_cons_self k rest)
    have hnd2 : ((done ++ [k]) ++ rest).Nodup := by
      simpa using hnd
    have hfold : renameLoop [] (k :: rest) acc =
        renameLoop [] rest (renameStep [] acc k) := rfl
    rw [hfold]
    have hstep : ∀ q2, lookupA (renameStep [] acc k) q2 =
        renameView sd0 (done ++ [k]) q2 := by
      by_cases hdk : decP k = true
      · -- the key is renamed: insert the rewritten key, delete the legacy one
        have henk : ¬(encP k = true) := fun h => dec_enc_not_both k hdk h
        have hviewk : renameView sd0 done k = lookupA sd0 k := by
          simp [renameView, hkdone, henk]
        have hsome : (lookupA sd0 k).isSome := hsub k (List.mem_cons_self k rest)
        obtain ⟨v, hv⟩ := Option.isSome_iff_exists.mp hsome
        have hacck : lookupA acc k = some v := by rw [hI k, hviewk, hv]
        have hdk2 : kDecoder.isPrefixOf k = true := hdk
        have hrs : renameStep [] acc k = eraseA (insertA acc (encOf k) v) k := by
          unfold renameStep
          simp only [List.nil_append]
          rw [if_pos hdk2, hacck]
          rfl
        intro q2
        rw [hrs]
        by_cases hqk : q2 = k
        · subst hqk
          rw [lookupA_eraseA_self]
          simp [renameView, hdk]
        · rw [lookupA_eraseA_ne _ _ _ hqk]
          by_cases hqe : q2 = encOf k
          · subst hqe
            rw [lookupA_insertA_self]
            have hde : ¬(decP (encOf k) = true) :=
              fun h => dec_enc_not_both _ h (encP_encOf k)
            simp [renameView, hde, encP_encOf k, decTwin_encOf k hdk, hv]
          · rw [lookupA_insertA_ne _ _ _ _ hqe, hI q2]
            refine (renameView_snoc sd0 done k q2 (fun _ => hqk) ?_).symm
            intro henq htwq
            exact hqe (eq_encOf_of_decTwin_eq q2 k henq htwq)
      · -- key not under the decoder namespace: nothing happens
        have hdk2 : ¬(kDecoder.isPrefixOf k = true) := fun hc => hdk hc
        have hrs : renameStep [] acc k = acc := by
          unfold renameStep
          simp only [List.nil_append]
          rw [if_neg hdk2]
        intro q2
        rw [hrs, hI q2]
        refine (renameView_snoc sd0 done k q2 ?_ ?_).symm
        · intro hdq hc
          subst hc
          exact hdk hdq
        · intro _ hc
          exact hdk (hc ▸ decP_decTwin q2)
    have := ih (done ++ [k]) (renameStep [] acc k) hnd2
      (fun x hx => hsub x (List.mem_cons_of_mem k hx)) hstep q
    simpa using this

/-- Pointwise characterization of the rename step over a whole blob with
distinct keys. -/
theorem renameLoop_lookup (sd : StateDict) (hnd : (keysA sd).Nodup) (q : Key) :
    lookupA (renameLoop [] (keysA sd) sd) q =
      if decP q ∧ q ∈ keysA sd then none
      else if encP q ∧ decTwin q ∈ keysA sd then lookupA sd (decTwin q)
      else lookupA sd q := by
  have h := renameLoop_aux sd (keysA sd) [] sd (by simpa using hnd)
    (fun k hk => (mem_keysA sd k).mp hk)
    (fun q2 => by simp [renameView]) q
  simpa [renameView] using h

/-! ### Head-reconciliation helpers (top-level, `name = ""`) -/

/-- Whether a key lies under the classification-heads namespace. -/
def clsP (k : Key) : Bool := kClsNS.isPrefixOf k

/-- The head name a classification-heads key refers to
(`k[len("classification_heads."):].split(".")[0]`). -/
def headOf (k : Key) : Key := upto_dot (k.drop kClsNS.length)

/-- The key holding a head's `out_proj.weight`. -/
def oKeyOf (g : Key) : Key := kClsNS ++ g ++ kOutProjW

/-- The key holding a head's `dense.weight`. -/
def dKeyOf (g : Key) : Key := kClsNS ++ g ++ kDenseW

/-- The persisted `num_classes` of head `g` in blob `sd`, when readable. -/
def persistedNC (sd : StateDict) (g : Key) : Option Nat :=
  (lookupA sd (oKeyOf g)).bind (fun t => t.shape.head?)

/-- The persisted `inner_dim` of head `g` in blob `sd`, when readable. -/
def persistedID (sd : StateDict) (g : Key) : Option Nat :=
  (lookupA sd (dKeyOf g)).bind (fun t => t.shape.head?)

/-- Whether a key is marked for deletion by the policy-off branch of head
reconciliation: a classification-heads key whose head is unknown, or known
with mismatched persisted shapes. -/
def dropsKey (m : Model) (sd : StateDict) (k : Key) : Bool :=
  clsP k &&
    (match lookupA m.classification_heads (headOf k) with
     | none => true
     | some cur =>
       match persistedNC sd (headOf k), persistedID sd (headOf k) with
       | some nc, some idim =>
           decide (nc ≠ cur.out_proj_out_features ∨ idim ≠ cur.dense_out_features)
       | _, _ => false)

/-- Head `g` has at least one key in the list `ks`. -/
def occursIn (ks : List Key) (g : Key) : Prop :=
  ∃ k ∈ ks, clsP k = true ∧ headOf k = g

theorem cls_not_dec (k : Key) (h1 : clsP k = true) (h2 : decP k = true) : False :=
  not_prefix_of_head_ne (a := 'c') (b := 'd') (by decide) h1 h2

theorem cls_not_enc (k : Key) (h1 : clsP k = true) (h2 : encP k = true) : False :=
  not_prefix_of_head_ne (a := 'c') (b := 'e') (by decide) h1 h2

theorem clsP_clsNS_append (r : Key) : clsP (kClsNS ++ r) = true :=
  prefixOf_append kClsNS r

theorem clsP_oKeyOf (g : Key) : clsP (oKeyOf g) = true := by
  unfold oKeyOf
  rw [List.append_assoc]
  exact clsP_clsNS_append _

theorem clsP_dKeyOf (g : Key) : clsP (dKeyOf g) = true := by
  unfold dKeyOf
  rw [List.append_assoc]
  exact clsP_clsNS_append _

theorem getItem_ok (sd : StateDict) (k : Key) (t : Tensor) :
    getItem sd k = .ok t ↔ lookupA sd k = some t := by
  unfold getItem
  cases lookupA sd k <;> simp

theorem size0_ok (t : Tensor) (n : Nat) :
    size0 t = .ok n ↔ t.shape.head? = some n := by
  unfold size0
  cases t.shape <;> simp

theorem except_bind_ok {ε α β : Type} (x : Except ε α) (f : α → Except ε β)
    (b : β) (h : (x >>= f) = .ok b) : ∃ a, x = .ok a ∧ f a = .ok b := by
  cases x with
  | error e => simp [Bind.bind, Except.bind] at h
  | ok a => exact ⟨a, rfl, by simpa [Bind.bind, Except.bind] using h⟩

theorem foldlM_ok_cons {ε σ α : Type} (f : σ → α → Except ε σ) (s : σ) (x : α)
    (xs : List α) (out : σ) (h : List.foldlM f s (x :: xs) = .ok out) :
    ∃ s2, f s x = .ok s2 ∧ List.foldlM f s2 xs = .ok out := by
  rw [List.foldlM_cons] at h
  exact except_bind_ok _ _ _ h

theorem foldlM_ok_nil {ε σ α : Type} (f : σ → α → Except ε σ) (s : σ)
    (out : σ) (h : List.foldlM f s ([] : List α) = .ok out) : out = s := by
  simp only [List.foldlM_nil] at h
  cases h
  rfl

theorem lookupA_eraseAll (ds : List Key) (sd : StateDict) (q : Key) :
    lookupA (eraseAll ds sd) q = if q ∈ ds then none else lookupA sd q := by
  induction ds generalizing sd with
  | nil => simp [eraseAll]
  | cons d rest ih =>
    have hstep : eraseAll (d :: rest) sd = eraseAll rest (eraseA sd d) := rfl
    rw [hstep, ih]
    by_cases hqd : q = d
    · subst hqd
      simp [lookupA_eraseA_self]
    · by_cases hqr : q ∈ rest
      · simp [hqr, hqd]
      · simp [hqr, hqd, lookupA_eraseA_ne sd d q hqd]

theorem hrStep_not_cls (sd : StateDict) (st : Model × List Key) (k : Key)
    (h : clsP k = false) : hrStep [] sd st k = pure st := by
  unfold hrStep
  simp only [List.nil_append]
  rw [if_neg (by simp [show kClsNS.isPrefixOf k = false from h])]

/-! ### Head reconciliation, policy off (`load_checkpoint_heads = False`) -/

theorem except_pure_ok {ε α : Type} {a b : α}
    (h : (pure a : Except ε α) = .ok b) : b = a := by
  cases h
  rfl

theorem headReconcile_off_aux (m : Model) (hoff : m.load_checkpoint_heads = false)
    (sd : StateDict) :
    ∀ (ks : List Key) (dels0 : List Key) (out : Model × List Key),
      List.foldlM (hrStep [] sd) (m, dels0) ks = .ok out →
      out.1 = m ∧ out.2 = dels0 ++ ks.filter (dropsKey m sd) := by
  intro ks
  induction ks with
  | nil =>
    intro dels0 out h
    have := foldlM_ok_nil _ _ _ h
    subst this
    simp
  | cons k rest ih =>
    intro dels0 out h
    obtain ⟨st2, hstep, hrest⟩ := foldlM_ok_cons _ _ _ _ _ h
    by_cases hcls : clsP k = true
    · have hcls2 : kClsNS.isPrefixOf k = true := hcls
      unfold hrStep at hstep
      simp only [List.nil_append] at hstep
      rw [if_pos hcls2] at hstep
      obtain ⟨tOut, hto, hstep⟩ := except_bind_ok _ _ _ hstep
      obtain ⟨nc, hnc, hstep⟩ := except_bind_ok _ _ _ hstep
      obtain ⟨tD, htd, hstep⟩ := except_bind_ok _ _ _ hstep
      obtain ⟨idim, hid, hstep⟩ := except_bind_ok _ _ _ hstep
      simp only [hoff, Bool.false_eq_true, if_false] at hstep
      have hNCpers : persistedNC sd (headOf k) = some nc := by
        have h1 : lookupA sd (kClsNS ++ upto_dot (k.drop kClsNS.length) ++ kOutProjW) =
            some tOut := (getItem_ok _ _ _).mp hto
        have h2 : tOut.shape.head? = some nc := (size0_ok _ _).mp hnc
        simp only [List.append_assoc] at h1
        simp [persistedNC, oKeyOf, headOf, List.append_assoc, h1, h2]
      have hIDpers : persistedID sd (headOf k) = some idim := by
        have h1 : lookupA sd (kClsNS ++ upto_dot (k.drop kClsNS.length) ++ kDenseW) =
            some tD := (getItem_ok _ _ _).mp htd
        have h2 : tD.shape.head? = some idim := (size0_ok _ _).mp hid
        simp only [List.append_assoc] at h1
        simp [persistedID, dKeyOf, headOf, List.append_assoc, h1, h2]
      split at hstep
      · -- unknown head: the key is marked for deletion
        next hcur =>
        have hst2 := except_pure_ok hstep
        subst hst2
        obtain ⟨h1, h2⟩ := ih (dels0 ++ [k]) out hrest
        have hdrop : dropsKey m sd k = true := by
          simp [dropsKey, hcls, show lookupA m.classification_heads (headOf k) = none from hcur]
        refine ⟨h1, ?_⟩
        rw [h2, List.filter_cons, if_pos (by simp [hdrop])]
        simp
      · -- known head: drop on mismatch
        next cur hcur =>
        have hcur2 : lookupA m.classification_heads (headOf k) = some cur := hcur
        split at hstep
        · next hmis =>
          have hst2 := except_pure_ok hstep
          subst hst2
          obtain ⟨h1, h2⟩ := ih (dels0 ++ [k]) out hrest
          have hdrop : dropsKey m sd k = true := by
            simp only [dropsKey, hcls, hcur2, hNCpers, hIDpers, Bool.true_and]
            simpa using hmis
          refine ⟨h1, ?_⟩
          rw [h2, List.filter_cons, if_pos (by simp [hdrop])]
          simp
        · next hmis =>
          have hst2 := except_pure_ok hstep
          subst hst2
          obtain ⟨h1, h2⟩ := ih dels0 out hrest
          have hdrop : dropsKey m sd k = false := by
            obtain ⟨he1, he2⟩ := not_or.mp hmis
            simp only [not_not] at he1 he2
            simp [dropsKey, hcur2, hNCpers, hIDpers, he1, he2]
          refine ⟨h1, ?_⟩
          rw [h2, List.filter_cons, if_neg (by simp [hdrop])]
    · rw [hrStep_not_cls sd _ k (by simpa using hcls)] at hstep
      have hst2 := except_pure_ok hstep
      subst hst2
      obtain ⟨h1, h2⟩ := ih dels0 out hrest
      have hdrop : dropsKey m sd k = false := by
        simp [dropsKey, show clsP k = false by simpa using hcls]
      refine ⟨h1, ?_⟩
      rw [h2, List.filter_cons, if_neg (by simp [hdrop])]

/-- With `load_checkpoint_heads` disabled, head reconciliation leaves the
model unchanged and marks exactly the keys `dropsKey` selects. -/
theorem headReconcile_off (m : Model) (hoff : m.load_checkpoint_heads = false)
    (sd : StateDict) (out : Model × List Key)
    (h : headReconcile [] sd m = .ok out) :
    out.1 = m ∧ out.2 = (keysA sd).filter (dropsKey m sd) := by
  have := headReconcile_off_aux m hoff sd (keysA sd) [] out h
  simpa using this

/-! ### Head reconciliation, policy on (`load_checkpoint_heads = True`) -/

theorem occursIn_snoc (P : List Key) (k g : Key) :
    occursIn (P ++ [k]) g ↔ occursIn P g ∨ (clsP k = true ∧ headOf k = g) := by
  simp [occursIn, List.mem_append, or_and_right, exists_or]

theorem register_heads_eq (m : Model) (name : Key) (nc idim : Nat) :
    ((register_classification_head m name nc idim).1).classification_heads =
      insertA m.classification_heads name
        (SMLPClassificationHead.build m.encoder_embed_dim
          (if idim = 0 then m.encoder_embed_dim else idim) nc m.fresh) := rfl

theorem register_embed_eq (m : Model) (name : Key) (nc idim : Nat) :
    ((register_classification_head m name nc idim).1).encoder_embed_dim =
      m.encoder_embed_dim := rfl

theorem register_load_eq (m : Model) (name : Key) (nc idim : Nat) :
    ((register_classification_head m name nc idim).1).load_checkpoint_heads =
      m.load_checkpoint_heads := rfl

theorem headReconcile_on_aux (m0 : Model) (sd : StateDict) :
    ∀ (ks P dels0 : List Key) (mc : Model) (out : Model × List Key),
      mc.encoder_embed_dim = m0.encoder_embed_dim →
      mc.load_checkpoint_heads = true →
      (∀ g, (lookupA m0.classification_heads g).isSome →
        lookupA mc.classification_heads g = lookupA m0.classification_heads g) →
      (∀ g, ¬(lookupA m0.classification_heads g).isSome →
        (occursIn P g → ∃ fr nc idim, persistedNC sd g = some nc ∧
          persistedID sd g = some idim ∧
          lookupA mc.classification_heads g =
            some (SMLPClassificationHead.build m0.encoder_embed_dim
              (if idim = 0 then m0.encoder_embed_dim else idim) nc fr)) ∧
        (¬occursIn P g → lookupA mc.classification_heads g = none)) →
      List.foldlM (hrStep [] sd) (mc, dels0) ks = .ok out →
      out.2 = dels0 ∧
      out.1.encoder_embed_dim = m0.encoder_embed_dim ∧
      (∀ g, (lookupA m0.classification_heads g).isSome →
        lookupA out.1.classification_heads g = lookupA m0.classification_heads g) ∧
      (∀ g, ¬(lookupA m0.classification_heads g).isSome →
        (occursIn (P ++ ks) g → ∃ fr nc idim, persistedNC sd g = some nc ∧
          persistedID sd g = some idim ∧
          lookupA out.1.classification_heads g =
            some (SMLPClassificationHead.build m0.encoder_embed_dim
              (if idim = 0 then m0.encoder_embed_dim else idim) nc fr)) ∧
        (¬occursIn (P ++ ks) g → lookupA out.1.classification_heads g = none)) := by
  intro ks
  induction ks with
  | nil =>
    intro P dels0 mc out hembed hload hkeep hnew h
    have := foldlM_ok_nil _ _ _ h
    subst this
    refine ⟨rfl, hembed, hkeep, ?_⟩
    rw [List.append_nil]
    exact hnew
  | cons k rest ih =>
    intro P dels0 mc out hembed hload hkeep hnew h
    obtain ⟨st2, hstep, hrest⟩ := foldlM_ok_cons _ _ _ _ _ h
    by_cases hcls : clsP k = true
    · have hcls2 : kClsNS.isPrefixOf k = true := hcls
      unfold hrStep at hstep
      simp only [List.nil_append] at hstep
      rw [if_pos hcls2] at hstep
      obtain ⟨tOut, hto, hstep⟩ := except_bind_ok _ _ _ hstep
      obtain ⟨nc, hnc, hstep⟩ := except_bind_ok _ _ _ hstep
      obtain ⟨tD, htd, hstep⟩ := except_bind_ok _ _ _ hstep
      obtain ⟨idim, hid, hstep⟩ := except_bind_ok _ _ _ hstep
      rw [if_pos hload] at hstep
      have hNCpers : persistedNC sd (headOf k) = some nc := by
        have h1 : lookupA sd (kClsNS ++ upto_dot (k.drop kClsNS.length) ++ kOutProjW) =
            some tOut := (getItem_ok _ _ _).mp hto
        have h2 : tOut.shape.head? = some nc := (size0_ok _ _).mp hnc
        simp only [List.append_assoc] at h1
        simp [persistedNC, oKeyOf, headOf, List.append_assoc, h1, h2]
      have hIDpers : persistedID sd (headOf k) = some idim := by
        have h1 : lookupA sd (kClsNS ++ upto_dot (k.drop kClsNS.length) ++ kDenseW) =
            some tD := (getItem_ok _ _ _).mp htd
        have h2 : tD.shape.head? = some idim := (size0_ok _ _).mp hid
        simp only [List.append_assoc] at h1
        simp [persistedID, dKeyOf, headOf, List.append_assoc, h1, h2]
      split at hstep
      · -- head already present in the live collection: no change
        next hctn =>
        have hctn2 : containsA mc.classification_heads (headOf k) = true := hctn
        have hst2 := except_pure_ok hstep
        subst hst2
        have hnew2 : ∀ g, ¬(lookupA m0.classification_heads g).isSome →
            (occursIn (P ++ [k]) g → ∃ fr nc2 idim2, persistedNC sd g = some nc2 ∧
              persistedID sd g = some idim2 ∧
              lookupA mc.classification_heads g =
                some (SMLPClassificationHead.build m0.encoder_embed_dim
                  (if idim2 = 0 then m0.encoder_embed_dim else idim2) nc2 fr)) ∧
            (¬occursIn (P ++ [k]) g → lookupA mc.classification_heads g = none) := by
          intro g hg
          obtain ⟨hocc, hnocc⟩ := hnew g hg
          constructor
          · intro hP
            rcases (occursIn_snoc P k g).mp hP with hP | ⟨_, hhead⟩
            · exact hocc hP
            · subst hhead
              by_cases hPg : occursIn P (headOf k)
              · exact hocc hPg
              · exact absurd (hnocc hPg) (by
                  intro hnone
                  rw [containsA, hnone] at hctn2
                  simp at hctn2)
          · intro hP
            exact hnocc (fun hocc2 => hP ((occursIn_snoc P k g).mpr (Or.inl hocc2)))
        have := ih (P ++ [k]) dels0 mc out hembed hload hkeep hnew2 hrest
        simpa using this
      · -- unknown head: it is registered with the persisted shapes
        next hctn =>
        have hctn2 : ¬(containsA mc.classification_heads (headOf k) = true) := hctn
        have hst2 := except_pure_ok hstep
        subst hst2
        have hlooknone : lookupA mc.classification_heads (headOf k) = none := by
          cases hl : lookupA mc.classification_heads (headOf k) with
          | none => rfl
          | some w => exact absurd (by simp [containsA, hl]) hctn2
        have hg0new : ¬(lookupA m0.classification_heads (headOf k)).isSome := by
          intro hs
          rw [hkeep (headOf k) hs] at hlooknone
          rw [hlooknone] at hs
          simp at hs
        have hembed2 : ((register_classification_head mc
            (upto_dot (k.drop kClsNS.length)) nc idim).1).encoder_embed_dim =
            m0.encoder_embed_dim := by
          rw [register_embed_eq]
          exact hembed
        have hload2 : ((register_classification_head mc
            (upto_dot (k.drop kClsNS.length)) nc idim).1).load_checkpoint_heads =
            true := by
          rw [register_load_eq]
          exact hload
        have hkeep2 : ∀ g, (lookupA m0.classification_heads g).isSome →
            lookupA ((register_classification_head mc
              (upto_dot (k.drop kClsNS.length)) nc idim).1).classification_heads g =
              lookupA m0.classification_heads g := by
          intro g hg
          rw [register_heads_eq]
          have hgne : g ≠ headOf k := by
            intro hc
            subst hc
            exact hg0new hg
          have hgne2 : g ≠ upto_dot (k.drop kClsNS.length) := hgne
          rw [lookupA_insertA_ne _ _ _ _ hgne2]
          exact hkeep g hg
        have hnew2 : ∀ g, ¬(lookupA m0.classification_heads g).isSome →
            (occursIn (P ++ [k]) g → ∃ fr nc2 idim2, persistedNC sd g = some nc2 ∧
              persistedID sd g = some idim2 ∧
              lookupA ((register_classification_head mc
                (upto_dot (k.drop kClsNS.length)) nc idim).1).classification_heads g =
                some (SMLPClassificationHead.build m0.encoder_embed_dim
                  (if idim2 = 0 then m0.encoder_embed_dim else idim2) nc2 fr)) ∧
            (¬occursIn (P ++ [k]) g → lookupA ((register_classification_head mc
              (upto_dot (k.drop kClsNS.length)) nc idim).1).classification_heads g =
              none) := by
          intro g hg
          obtain ⟨hocc, hnocc⟩ := hnew g hg
          rw [register_heads_eq]
          by_cases hgk : g = headOf k
          · subst hgk
            constructor
            · intro _
              refine ⟨mc.fresh, nc, idim, hNCpers, hIDpers, ?_⟩
              show lookupA (insertA mc.classification_heads
                  (upto_dot (k.drop kClsNS.length))
                  (SMLPClassificationHead.build mc.encoder_embed_dim
                    (if idim = 0 then mc.encoder_embed_dim else idim) nc mc.fresh))
                  (upto_dot (k.drop kClsNS.length)) =
                some (SMLPClassificationHead.build m0.encoder_embed_dim
                  (if idim = 0 then m0.encoder_embed_dim else idim) nc mc.fresh)
              rw [lookupA_insertA_self, hembed]
            · intro hP
              exact absurd ((occursIn_snoc P k _).mpr (Or.inr ⟨hcls, rfl⟩)) hP
          · have hgk2 : g ≠ upto_dot (k.drop kClsNS.length) := hgk
            rw [lookupA_insertA_ne _ _ _ _ hgk2]
            constructor
            · intro hP
              rcases (occursIn_snoc P k g).mp hP with hP | ⟨_, hhead⟩
              · exact hocc hP
              · exact absurd hhead.symm hgk
            · intro hP
              exact hnocc (fun hocc2 => hP ((occursIn_snoc P k g).mpr (Or.inl hocc2)))
        have := ih (P ++ [k]) dels0 _ out hembed2 hload2 hkeep2 hnew2 hrest
        simpa using this
    · rw [hrStep_not_cls sd _ k (by simpa using hcls)] at hstep
      have hst2 := except_pure_ok hstep
      subst hst2
      have hnew2 : ∀ g, ¬(lookupA m0.classification_heads g).isSome →
          (occursIn (P ++ [k]) g → ∃ fr nc2 idim2, persistedNC sd g = some nc2 ∧
            persistedID sd g = some idim2 ∧
            lookupA mc.classification_heads g =
              some (SMLPClassificationHead.build m0.encoder_embed_dim
                (if idim2 = 0 then m0.encoder_embed_dim else idim2) nc2 fr)) ∧
          (¬occursIn (P ++ [k]) g → lookupA mc.classification_heads g = none) := by
        intro g hg
        obtain ⟨hocc, hnocc⟩ := hnew g hg
        constructor
        · intro hP
          rcases (occursIn_snoc P k g).mp hP with hP | ⟨hclsk, _⟩
          · exact hocc hP
          · exact absurd hclsk (by simpa using hcls)
        · intro hP
          exact hnocc (fun hocc2 => hP ((occursIn_snoc P k g).mpr (Or.inl hocc2)))
      have := ih (P ++ [k]) dels0 mc out hembed hload hkeep hnew2 hrest
      simpa using this

/-- With `load_checkpoint_heads` enabled, head reconciliation deletes nothing,
keeps every known head, and registers every head occurring in the blob that
the model lacks, with the blob's persisted shapes. -/
theorem headReconcile_on (m : Model) (hon : m.load_checkpoint_heads = true)
    (sd : StateDict) (out : Model × List Key)
    (h : headReconcile [] sd m = .ok out) :
    out.2 = [] ∧
    out.1.encoder_embed_dim = m.encoder_embed_dim ∧
    (∀ g, (lookupA m.classification_heads g).isSome →
      lookupA out.1.classification_heads g = lookupA m.classification_heads g) ∧
    (∀ g, ¬(lookupA m.classification_heads g).isSome → occursIn (keysA sd) g →
      ∃ fr nc idim, persistedNC sd g = some nc ∧ persistedID sd g = some idim ∧
        lookupA out.1.classification_heads g =
          some (SMLPClassificationHead.build m.encoder_embed_dim
            (if idim = 0 then m.encoder_embed_dim else idim) nc fr)) := by
  have haux := headReconcile_on_aux m sd (keysA sd) [] [] m out rfl hon
    (fun _ _ => rfl)
    (fun g hg => ⟨fun hocc => absurd hocc (by simp [occursIn]),
      fun _ => by
        cases hl : lookupA m.classification_heads g with
        | none => rfl
        | some w => exact absurd (by simp [hl]) hg⟩)
    h
  obtain ⟨h1, h2, h3, h4⟩ := haux
  refine ⟨h1, h2, h3, fun g hg hocc => ?_⟩
  obtain ⟨ho, _⟩ := h4 g hg
  exact ho (by simpa using hocc)

/-! ### Further migration lemmas -/

theorem ok_bind {ε α β : Type} (a : α) (f : α → Except ε β) :
    (Except.ok a : Except ε α) >>= f = f a := rfl

theorem headReconcile_dels_cls_aux (sd : StateDict) :
    ∀ (ks : List Key) (st out : Model × List Key),
      (∀ k ∈ st.2, clsP k = true) →
      List.foldlM (hrStep [] sd) st ks = .ok out →
      ∀ k ∈ out.2, clsP k = true := by
  intro ks
  induction ks with
  | nil =>
    intro st out hst h
    have := foldlM_ok_nil _ _ _ h
    subst this
    exact hst
  | cons k rest ih =>
    intro st out hst h
    obtain ⟨st2, hstep, hrest⟩ := foldlM_ok_cons _ _ _ _ _ h
    refine ih st2 out ?_ hrest
    by_cases hcls : clsP k = true
    · have hcls2 : kClsNS.isPrefixOf k = true := hcls
      unfold hrStep at hstep
      simp only [List.nil_append] at hstep
      rw [if_pos hcls2] at hstep
      obtain ⟨tOut, hto, hstep⟩ := except_bind_ok _ _ _ hstep
      obtain ⟨nc, hnc, hstep⟩ := except_bind_ok _ _ _ hstep
      obtain ⟨tD, htd, hstep⟩ := except_bind_ok _ _ _ hstep
      obtain ⟨idim, hid, hstep⟩ := except_bind_ok _ _ _ hstep
      have hsnoc : ∀ x ∈ st.2 ++ [k], clsP x = true := by
        intro x hx
        rcases List.mem_append.mp hx with hx | hx
        · exact hst x hx
        · rw [List.mem_singleton] at hx
          subst hx
          exact hcls
      split at hstep
      · split at hstep
        · have := except_pure_ok hstep
          subst this
          exact hst
        · have := except_pure_ok hstep
          subst this
          exact hst
      · split at hstep
        · have := except_pure_ok hstep
          subst this
          exact hsnoc
        · split at hstep
          · have := except_pure_ok hstep
            subst this
            exact hsnoc
          · have := except_pure_ok hstep
            subst this
            exact hst
    · rw [hrStep_not_cls sd _ k (by simpa using hcls)] at hstep
      have := except_pure_ok hstep
      subst this
      exact hst

/-- Every key the reconciliation marks for deletion lies under the
classification-heads namespace. -/
theorem headReconcile_dels_cls (m : Model) (sd : StateDict)
    (out : Model × List Key) (h : headReconcile [] sd m = .ok out) :
    ∀ k ∈ out.2, clsP k = true :=
  headReconcile_dels_cls_aux sd (keysA sd) (m, []) out (by simp) h

theorem foldlM_hrStep_total (sd : StateDict) :
    ∀ (ks : List Key) (st : Model × List Key),
      (∀ k ∈ ks, clsP k = true →
        (∃ t n s, lookupA sd (oKeyOf (headOf k)) = some t ∧ t.shape = n :: s) ∧
        (∃ t n s, lookupA sd (dKeyOf (headOf k)) = some t ∧ t.shape = n :: s)) →
      ∃ out, List.foldlM (hrStep [] sd) st ks = .ok out := by
  intro ks
  induction ks with
  | nil =>
    intro st _
    exact ⟨st, rfl⟩
  | cons k rest ih =>
    intro st hks
    have hstepex : ∃ st2, hrStep [] sd st k = .ok st2 := by
      by_cases hcls : clsP k = true
      · obtain ⟨⟨tO, nO, sO, hto, hshO⟩, ⟨tDn, nD, sD, htd, hshD⟩⟩ :=
          hks k (List.mem_cons_self k rest) hcls
        have h1 : getItem sd (kClsNS ++ upto_dot (k.drop kClsNS.length) ++ kOutProjW) =
            Except.ok tO := by
          apply (getItem_ok _ _ _).mpr
          have : lookupA sd (oKeyOf (headOf k)) = some tO := hto
          simpa [oKeyOf, headOf, List.append_assoc] using this
        have h2 : size0 tO = Except.ok nO := by
          apply (size0_ok _ _).mpr
          rw [hshO]
          rfl
        have h3 : getItem sd (kClsNS ++ upto_dot (k.drop kClsNS.length) ++ kDenseW) =
            Except.ok tDn := by
          apply (getItem_ok _ _ _).mpr
          have : lookupA sd (dKeyOf (headOf k)) = some tDn := htd
          simpa [dKeyOf, headOf, List.append_assoc] using this
        have h4 : size0 tDn = Except.ok nD := by
          apply (size0_ok _ _).mpr
          rw [hshD]
          rfl
        unfold hrStep
        simp only [List.nil_append]
        rw [if_pos (show kClsNS.isPrefixOf k = true from hcls)]
        rw [h1]
        simp only [ok_bind]
        rw [h2]
        simp only [ok_bind]
        rw [h3]
        simp only [ok_bind]
        rw [h4]
        simp only [ok_bind]
        split
        · split
          · exact ⟨_, rfl⟩
          · exact ⟨_, rfl⟩
        · split
          · exact ⟨_, rfl⟩
          · split
            · exact ⟨_, rfl⟩
            · exact ⟨_, rfl⟩
      · exact ⟨st, hrStep_not_cls sd st k (by simpa using hcls)⟩
    obtain ⟨st2, hstep⟩ := hstepex
    obtain ⟨out, hout⟩ := ih st2 (fun x hx hc => hks x (List.mem_cons_of_mem k hx) hc)
    refine ⟨out, ?_⟩
    rw [List.foldlM_cons, hstep, ok_bind]
    exact hout

/-! ### Backfill lemmas -/

theorem backfill_frame (entries : List (Key × Tensor)) :
    ∀ (sd : StateDict) (q : Key),
      (∀ p ∈ entries, kClsNS ++ p.1 ≠ q) →
      lookupA (entries.foldl (bfStep []) sd) q = lookupA sd q := by
  induction entries with
  | nil =>
    intro sd q _
    rfl
  | cons p rest ih =>
    intro sd q hne
    have hfold : (p :: rest).foldl (bfStep []) sd = rest.foldl (bfStep []) (bfStep [] sd p) := rfl
    rw [hfold, ih _ q (fun x hx => hne x (List.mem_cons_of_mem p hx))]
    unfold bfStep
    simp only [List.nil_append]
    split
    · rfl
    · exact lookupA_insertA_ne _ _ _ _ (fun hh => hne p (List.mem_cons_self p rest) hh.symm)

theorem backfill_present (entries : List (Key × Tensor)) :
    ∀ (sd : StateDict) (q : Key),
      containsA sd q = true →
      lookupA (entries.foldl (bfStep []) sd) q = lookupA sd q := by
  induction entries with
  | nil =>
    intro sd q _
    rfl
  | cons p rest ih =>
    intro sd q h
    have hfold : (p :: rest).foldl (bfStep []) sd = rest.foldl (bfStep []) (bfStep [] sd p) := rfl
    rw [hfold]
    have hstep : lookupA (bfStep [] sd p) q = lookupA sd q ∧
        containsA (bfStep [] sd p) q = true := by
      unfold bfStep
      simp only [List.nil_append]
      split
      · exact ⟨rfl, h⟩
      · next hcd =>
        by_cases hkq : kClsNS ++ p.1 = q
        · subst hkq
          exact absurd h (by simpa using hcd)
        · have hne : q ≠ kClsNS ++ p.1 := fun hh => hkq hh.symm
          refine ⟨lookupA_insertA_ne _ _ _ _ hne, ?_⟩
          unfold containsA
          rw [lookupA_insertA_ne _ _ _ _ hne]
          exact h
    rw [ih _ q hstep.2, hstep.1]

theorem backfill_inserts (entries : List (Key × Tensor)) :
    ∀ (sd : StateDict) (hk : Key) (v : Tensor),
      (hk, v) ∈ entries →
      (∀ p ∈ entries, p.1 = hk → p.2 = v) →
      containsA sd (kClsNS ++ hk) = false →
      lookupA (entries.foldl (bfStep []) sd) (kClsNS ++ hk) = some v := by
  induction entries with
  | nil =>
    intro sd hk v hmem _ _
    simp at hmem
  | cons p rest ih =>
    intro sd hk v hmem huniq habs
    have hfold : (p :: rest).foldl (bfStep []) sd = rest.foldl (bfStep []) (bfStep [] sd p) := rfl
    rw [hfold]
    by_cases hph : p.1 = hk
    · have hpv : p.2 = v := huniq p (List.mem_cons_self p rest) hph
      have hstep : bfStep [] sd p = insertA sd (kClsNS ++ p.1) p.2 := by
        unfold bfStep
        simp only [List.nil_append]
        rw [if_neg (by rw [hph]; simp [habs])]
      rw [hstep, hph, hpv]
      have hctn : containsA (insertA sd (kClsNS ++ hk) v) (kClsNS ++ hk) = true := by
        unfold containsA
        rw [lookupA_insertA_self]
        rfl
      rw [backfill_present rest _ _ hctn, lookupA_insertA_self]
    · have hkne : kClsNS ++ p.1 ≠ kClsNS ++ hk := by
        intro hh
        exact hph (List.append_cancel_left hh)
      have hmem2 : (hk, v) ∈ rest := by
        rcases List.mem_cons.mp hmem with hh | hh
        · exact absurd (congrArg Prod.fst hh.symm) hph
        · exact hh
      have hstep : containsA (bfStep [] sd p) (kClsNS ++ hk) = false := by
        unfold bfStep
        simp only [List.nil_append]
        split
        · exact habs
        · unfold containsA
          rw [lookupA_insertA_ne _ _ _ _ (fun hh => hkne hh.symm)]
          exact habs
      exact ih _ hk v hmem2 (fun x hx => huniq x (List.mem_cons_of_mem p hx)) hstep

/-! ### Head names, dots and the heads' state-dict keys -/

theorem upto_dot_append (a s : Key) (ha : ('.' : Char) ∉ a)
    (hs : s.head? = some '.') : upto_dot (a ++ s) = a := by
  induction a with
  | nil =>
    cases s with
    | nil => simp at hs
    | cons c t =>
      simp only [Option.some.injEq, List.head?] at hs
      subst hs
      simp [upto_dot]
  | cons c a2 ih =>
    have hc : c ≠ '.' := by
      intro hh
      exact ha (by rw [hh]; exact List.mem_cons_self _ _)
    simp only [List.cons_append, upto_dot, if_neg (fun hh => hc hh)]
    show c :: upto_dot (a2 ++ s) = c :: a2
    rw [ih (fun hh => ha (List.mem_cons_of_mem c hh))]

theorem dotfree_append_inj : ∀ (a b s t : Key), (('.' : Char) ∉ a) → (('.' : Char) ∉ b) →
    s.head? = some '.' → t.head? = some '.' → a ++ s = b ++ t → a = b ∧ s = t := by
  intro a
  induction a with
  | nil =>
    intro b s t _ hb hs _ h
    cases b with
    | nil =>
      constructor
      · rfl
      · simpa using h
    | cons c b2 =>
      rw [List.nil_append, List.cons_append] at h
      rw [h] at hs
      simp only [List.head?, Option.some.injEq] at hs
      exact absurd (List.mem_cons_self c b2) (by rw [hs] at hb ⊢; exact hb)
  | cons c a2 ih =>
    intro b s t ha hb hs ht h
    cases b with
    | nil =>
      rw [List.nil_append, List.cons_append] at h
      rw [← h] at ht
      simp only [List.head?, Option.some.injEq] at ht
      exact absurd (List.mem_cons_self c a2) (by rw [ht] at ha ⊢; exact ha)
    | cons c2 b2 =>
      simp only [List.cons_append, List.cons.injEq] at h
      obtain ⟨hc, h2⟩ := h
      obtain ⟨hab, hst⟩ := ih b2 s t (fun hh => ha (List.mem_cons_of_mem c hh))
        (fun hh => hb (List.mem_cons_of_mem c2 hh)) hs ht h2
      subst hc
      exact ⟨by rw [hab], hst⟩

theorem lookupA_some_mem {α : Type} (l : List (Key × α)) (q : Key) (v : α)
    (h : lookupA l q = some v) : (q, v) ∈ l := by
  induction l with
  | nil => simp [lookupA] at h
  | cons p rest ih =>
    by_cases hq : q = p.1
    · simp only [lookupA, if_pos hq] at h
      cases h
      subst hq
      exact List.mem_cons_self _ _
    · simp only [lookupA, if_neg hq] at h
      exact List.mem_cons_of_mem p (ih h)

theorem nodup_mem_value_unique {α : Type} (l : List (Key × α)) (k : Key)
    (v1 v2 : α) (hnd : (keysA l).Nodup) (h1 : (k, v1) ∈ l) (h2 : (k, v2) ∈ l) :
    v1 = v2 := by
  induction l with
  | nil => simp at h1
  | cons p rest ih =>
    have hnd2 : (keysA rest).Nodup := by
      rw [keysA, List.map_cons] at hnd
      exact (List.nodup_cons.mp hnd).2
    have hknotin : p.1 ∉ keysA rest := by
      rw [keysA, List.map_cons] at hnd
      exact (List.nodup_cons.mp hnd).1
    rcases List.mem_cons.mp h1 with hh1 | hh1 <;>
      rcases List.mem_cons.mp h2 with hh2 | hh2
    · exact congrArg Prod.snd (hh1.trans hh2.symm)
    · exfalso
      apply hknotin
      rw [show p.1 = k from congrArg Prod.fst hh1.symm]
      rw [keysA]
      exact List.mem_map_of_mem Prod.fst hh2
    · exfalso
      apply hknotin
      rw [show p.1 = k from congrArg Prod.fst hh2.symm]
      rw [keysA]
      exact List.mem_map_of_mem Prod.fst hh1
    · exact ih hnd2 hh1 hh2

theorem mem_headsStateDict (hs : List (Key × SMLPClassificationHead)) (p : Key × Tensor) :
    p ∈ headsStateDict hs ↔ ∃ q ∈ hs,
      p = (q.1 ++ kDenseW, q.2.dense_weight) ∨
      p = (q.1 ++ kDenseB, q.2.dense_bias) ∨
      p = (q.1 ++ kOutProjW, q.2.out_proj_weight) ∨
      p = (q.1 ++ kOutProjB, q.2.out_proj_bias) := by
  induction hs with
  | nil =>
    constructor
    · intro h
      exact absurd h (List.not_mem_nil p)
    · rintro ⟨q, hq, _⟩
      exact absurd hq (List.not_mem_nil q)
  | cons q2 rest ih =>
    have hfold : headsStateDict (q2 :: rest) =
        (q2.1 ++ kDenseW, q2.2.dense_weight) ::
        (q2.1 ++ kDenseB, q2.2.dense_bias) ::
        (q2.1 ++ kOutProjW, q2.2.out_proj_weight) ::
        (q2.1 ++ kOutProjB, q2.2.out_proj_bias) :: headsStateDict rest := rfl
    rw [hfold]
    simp only [List.mem_cons, ih, List.mem_cons]
    constructor
    · rintro (h | h | h | h | ⟨q3, hq3, hcase⟩)
      · exact ⟨q2, Or.inl rfl, Or.inl h⟩
      · exact ⟨q2, Or.inl rfl, Or.inr (Or.inl h)⟩
      · exact ⟨q2, Or.inl rfl, Or.inr (Or.inr (Or.inl h))⟩
      · exact ⟨q2, Or.inl rfl, Or.inr (Or.inr (Or.inr h))⟩
      · exact ⟨q3, Or.inr hq3, hcase⟩
    · rintro ⟨q3, hq3 | hq3, hcase⟩
      · subst hq3
        rcases hcase with h | h | h | h
        · exact Or.inl h
        · exact Or.inr (Or.inl h)
        · exact Or.inr (Or.inr (Or.inl h))
        · exact Or.inr (Or.inr (Or.inr (Or.inl h)))
      · exact Or.inr (Or.inr (Or.inr (Or.inr ⟨q3, hq3, hcase⟩)))

/-! ### Decomposing a successful migration -/

theorem upgrade_ok_iff (m : Model) (sd : StateDict) (out : Model × StateDict × List Key) :
    upgrade_state_dict_named m sd [] = .ok out ↔
    ∃ st, headReconcile [] (renameLoop [] (keysA sd) sd) m = .ok st ∧
      out = (st.1, backfill [] st.1 (eraseAll st.2 (renameLoop [] (keysA sd) sd)), st.2) := by
  constructor
  · intro h
    cases hhr : headReconcile [] (renameLoop [] (keysA sd) sd) m with
    | error e =>
      unfold upgrade_state_dict_named at h
      simp [hhr, Bind.bind, Except.bind] at h
    | ok st =>
      unfold upgrade_state_dict_named at h
      simp only [ne_eq, not_true_eq_false, if_false, hhr, ok_bind] at h
      refine ⟨st, rfl, ?_⟩
      exact (except_pure_ok h).symm ▸ rfl
  · rintro ⟨st, hst, rfl⟩
    unfold upgrade_state_dict_named
    simp only [ne_eq, not_true_eq_false, if_false, hst, ok_bind]
    rfl

/-- A key that is neither decoder- nor encoder-prefixed is untouched by the
rename step. -/
theorem renameLoop_lookup_other (sd : StateDict) (hnd : (keysA sd).Nodup)
    (q : Key) (h1 : decP q = false) (h2 : encP q = false) :
    lookupA (renameLoop [] (keysA sd) sd) q = lookupA sd q := by
  rw [renameLoop_lookup sd hnd q]
  simp [h1, h2]

theorem not_cls_ne_clskey (q : Key) (h : clsP q = false) (r : Key) :
    kClsNS ++ r ≠ q := by
  intro hc
  rw [← hc] at h
  rw [clsP_clsNS_append r] at h
  cases h

/-- The well-formedness of a live head collection: distinct names, no dots in
a name (`nn.ModuleDict` itself forbids dotted keys). -/
def headsWellNamed (hs : List (Key × SMLPClassificationHead)) : Prop :=
  (keysA hs).Nodup ∧ ∀ g ∈ keysA hs, ('.' : Char) ∉ g

instance (hs : List (Key × SMLPClassificationHead)) :
    Decidable (headsWellNamed hs) := by
  unfold headsWellNamed
  infer_instance

theorem headOf_cls_key (g s : Key) (hg : ('.' : Char) ∉ g)
    (hs : s.head? = some '.') : headOf (kClsNS ++ (g ++ s)) = g := by
  unfold headOf
  rw [drop_append_self]
  exact upto_dot_append g s hg hs

theorem backfill_canonical (m : Model) (hnd : (keysA m.classification_heads).Nodup)
    (hdot : ∀ g2 ∈ keysA m.classification_heads, ('.' : Char) ∉ g2)
    (g : Key) (cur : SMLPClassificationHead)
    (hcur : lookupA m.classification_heads g = some cur)
    (suffix : Key) (tv : Tensor)
    (hsel : (suffix = kDenseW ∧ tv = cur.dense_weight) ∨
            (suffix = kDenseB ∧ tv = cur.dense_bias) ∨
            (suffix = kOutProjW ∧ tv = cur.out_proj_weight) ∨
            (suffix = kOutProjB ∧ tv = cur.out_proj_bias))
    (sd : StateDict) (habs : containsA sd (kClsNS ++ (g ++ suffix)) = false) :
    lookupA (backfill [] m sd) (kClsNS ++ (g ++ suffix)) = some tv := by
  have hgmem : g ∈ keysA m.classification_heads := by
    rw [mem_keysA]
    rw [hcur]
    rfl
  have hgdot : ('.' : Char) ∉ g := hdot g hgmem
  have hgcur : (g, cur) ∈ m.classification_heads := lookupA_some_mem _ _ _ hcur
  have hsufhead : suffix.head? = some '.' := by
    rcases hsel with ⟨hh, _⟩ | ⟨hh, _⟩ | ⟨hh, _⟩ | ⟨hh, _⟩ <;> subst hh <;> rfl
  have hmem : (g ++ suffix, tv) ∈ headsStateDict m.classification_heads := by
    rw [mem_headsStateDict]
    refine ⟨(g, cur), hgcur, ?_⟩
    rcases hsel with ⟨hh, hv⟩ | ⟨hh, hv⟩ | ⟨hh, hv⟩ | ⟨hh, hv⟩ <;> subst hh <;> subst hv
    · exact Or.inl rfl
    · exact Or.inr (Or.inl rfl)
    · exact Or.inr (Or.inr (Or.inl rfl))
    · exact Or.inr (Or.inr (Or.inr rfl))
  have huniq : ∀ p ∈ headsStateDict m.classification_heads,
      p.1 = g ++ suffix → p.2 = tv := by
    intro p hp h1
    rw [mem_headsStateDict] at hp
    obtain ⟨q2, hq2, hcase⟩ := hp
    have hq2dot : ('.' : Char) ∉ q2.1 := by
      apply hdot
      rw [keysA]
      exact List.mem_map_of_mem Prod.fst hq2
    have hval : ∀ (s2 : Key) (v2 : Tensor), p = (q2.1 ++ s2, v2) →
        s2.head? = some '.' → q2.1 = g ∧ s2 = suffix ∧ p.2 = v2 := by
      intro s2 v2 hps hs2
      have h2 : q2.1 ++ s2 = g ++ suffix := by
        rw [← h1, hps]
      obtain ⟨hga, hsa⟩ := dotfree_append_inj q2.1 g s2 suffix hq2dot hgdot hs2 hsufhead h2
      exact ⟨hga, hsa, by rw [hps]⟩
    have hq2cur : q2.1 = g → q2.2 = cur := by
      intro hq2g
      have : (g, q2.2) ∈ m.classification_heads := by
        rw [← hq2g]
        exact hq2
      exact nodup_mem_value_unique _ _ _ _ hnd this hgcur
    rcases hcase with hc | hc | hc | hc
    · obtain ⟨hga, hsa, hpv⟩ := hval kDenseW q2.2.dense_weight hc rfl
      rcases hsel with ⟨hh, hv⟩ | ⟨hh, hv⟩ | ⟨hh, hv⟩ | ⟨hh, hv⟩ <;> subst hh
      · rw [hpv, hq2cur hga, hv]
      · exact absurd hsa (by decide)
      · exact absurd hsa (by decide)
      · exact absurd hsa (by decide)
    · obtain ⟨hga, hsa, hpv⟩ := hval kDenseB q2.2.dense_bias hc rfl
      rcases hsel with ⟨hh, hv⟩ | ⟨hh, hv⟩ | ⟨hh, hv⟩ | ⟨hh, hv⟩ <;> subst hh
      · exact absurd hsa (by decide)
      · rw [hpv, hq2cur hga, hv]
      · exact absurd hsa (by decide)
      · exact absurd hsa (by decide)
    · obtain ⟨hga, hsa, hpv⟩ := hval kOutProjW q2.2.out_proj_weight hc rfl
      rcases hsel with ⟨hh, hv⟩ | ⟨hh, hv⟩ | ⟨hh, hv⟩ | ⟨hh, hv⟩ <;> subst hh
      · exact absurd hsa (by decide)
      · exact absurd hsa (by decide)
      · rw [hpv, hq2cur hga, hv]
      · exact absurd hsa (by decide)
    · obtain ⟨hga, hsa, hpv⟩ := hval kOutProjB q2.2.out_proj_bias hc rfl
      rcases hsel with ⟨hh, hv⟩ | ⟨hh, hv⟩ | ⟨hh, hv⟩ | ⟨hh, hv⟩ <;> subst hh
      · exact absurd hsa (by decide)
      · exact absurd hsa (by decide)
      · exact absurd hsa (by decide)
      · rw [hpv, hq2cur hga, hv]
  exact backfill_inserts (headsStateDict m.classification_heads) sd
    (g ++ suffix) tv hmem huniq habs

/-! ### Claims C5, C9, C8 -/

theorem bfalse {b : Bool} (h : ¬(b = true)) : b = false := by
  cases b
  · rfl
  · exact absurd rfl h

theorem backfill_not_cls (m : Model) (sd : StateDict) (q : Key)
    (h : clsP q = false) : lookupA (backfill [] m sd) q = lookupA sd q := by
  unfold backfill
  exact backfill_frame _ _ _ (fun p _ => not_cls_ne_clskey q h p.1)

/-- Shared rename lemma: any `"decoder"`-prefixed key of the blob ends up
under its rewritten `"encoder"` key with the original value, and the legacy
key is gone from the migrated blob. -/
theorem rename_migrated (m : Model) (sd : StateDict) (m2 : Model)
    (sd2 : StateDict) (dels : List Key) (hnd : (keysA sd).Nodup) (k : Key)
    (hk : k ∈ keysA sd) (hdec : decP k = true)
    (h : upgrade_state_dict_named m sd [] = .ok (m2, sd2, dels)) :
    lookupA sd2 (encOf k) = lookupA sd k ∧ lookupA sd2 k = none := by
  obtain ⟨st, hhr, hout⟩ := (upgrade_ok_iff m sd _).mp h
  have h2 := congrArg (fun p => p.2.1) hout
  simp only at h2
  have hdelscls := headReconcile_dels_cls _ _ _ hhr
  constructor
  · have hq1enc := encP_encOf k
    have hq1cls : clsP (encOf k) = false :=
      bfalse (fun hc => (cls_not_enc _ hc hq1enc).elim)
    have hq1dec : decP (encOf k) = false :=
      bfalse (fun hc => (dec_enc_not_both _ hc hq1enc).elim)
    have hnotdel : encOf k ∉ st.2 := by
      intro hmem
      rw [hdelscls (encOf k) hmem] at hq1cls
      cases hq1cls
    rw [h2, backfill_not_cls _ _ _ hq1cls, lookupA_eraseAll, if_neg hnotdel,
      renameLoop_lookup sd hnd (encOf k),
      if_neg (fun hc => by rw [hq1dec] at hc; cases hc.1),
      if_pos ⟨hq1enc, by rw [decTwin_encOf k hdec]; exact hk⟩,
      decTwin_encOf k hdec]
  · have hkcls : clsP k = false := bfalse (fun hc => (cls_not_dec k hc hdec).elim)
    have hnotdel : k ∉ st.2 := by
      intro hmem
      rw [hdelscls k hmem] at hkcls
      cases hkcls
    rw [h2, backfill_not_cls _ _ _ hkcls, lookupA_eraseAll, if_neg hnotdel,
      renameLoop_lookup sd hnd k, if_pos ⟨hdec, hk⟩]

/-- C5: every key under the legacy top-level `decoder.` namespace is rewritten
to the `encoder.` namespace with the rest of the dotted path and the tensor
value preserved; the legacy key is removed; a pre-existing entry under the
rewritten key is overwritten by the rewritten value (the first conjunct holds
whether or not the rewritten key was already present). -/
theorem decoder_namespace_rename (m : Model) (sd : StateDict) (m2 : Model)
    (sd2 : StateDict) (dels : List Key) (hnd : (keysA sd).Nodup) (k : Key)
    (hk : k ∈ keysA sd) (hdec : (kDecoder ++ kDot).isPrefixOf k = true)
    (h : upgrade_state_dict_named m sd [] = .ok (m2, sd2, dels)) :
    lookupA sd2 (encOf k) = lookupA sd k ∧ lookupA sd2 k = none := by
  have hdec2 : decP k = true := by
    rw [decP, List.isPrefixOf_iff_prefix]
    rw [List.isPrefixOf_iff_prefix] at hdec
    exact List.IsPrefix.trans (List.prefix_append kDecoder kDot) hdec
  exact rename_migrated m sd m2 sd2 dels hnd k hk hdec2 h

/-- C9: the legacy rename matches by plain string prefix, not by path
segment: any key whose characters start with `decoder` — also when `decoder`
is not followed by a dot, as in `decoder_embed.weight` — is rewritten by
replacing that prefix with `encoder`, and the original key is removed. -/
theorem decoder_plain_prefix_rename (m : Model) (sd : StateDict) (m2 : Model)
    (sd2 : StateDict) (dels : List Key) (hnd : (keysA sd).Nodup) (k : Key)
    (hk : k ∈ keysA sd) (hdec : decP k = true)
    (h : upgrade_state_dict_named m sd [] = .ok (m2, sd2, dels)) :
    lookupA sd2 (encOf k) = lookupA sd k ∧ lookupA sd2 k = none :=
  rename_migrated m sd m2 sd2 dels hnd k hk hdec h

/-- C8 (amended): a key neither under the `decoder` namespace nor under the
classification-heads namespace is preserved with its value, provided it is
not the rewrite target of a legacy `decoder` key present in the blob (in
that collision case the rename overwrites it, last-writer-wins). -/
theorem untouched_keys_preserved (m : Model) (sd : StateDict) (m2 : Model)
    (sd2 : StateDict) (dels : List Key) (hnd : (keysA sd).Nodup) (q : Key)
    (h1 : decP q = false) (h2 : clsP q = false)
    (h3 : ¬(encP q = true ∧ decTwin q ∈ keysA sd))
    (h : upgrade_state_dict_named m sd [] = .ok (m2, sd2, dels)) :
    lookupA sd2 q = lookupA sd q := by
  obtain ⟨st, hhr, hout⟩ := (upgrade_ok_iff m sd _).mp h
  have hsd2 := congrArg (fun p => p.2.1) hout
  simp only at hsd2
  have hdelscls := headReconcile_dels_cls _ _ _ hhr
  have hnotdel : q ∉ st.2 := by
    intro hmem
    rw [hdelscls q hmem] at h2
    cases h2
  rw [hsd2, backfill_not_cls _ _ _ h2, lookupA_eraseAll, if_neg hnotdel,
    renameLoop_lookup sd hnd q,
    if_neg (fun hc => by rw [h1] at hc; cases hc.1), if_neg h3]

/-! ### Concrete witness data -/

def wTensor : Tensor := ⟨[3], 0⟩

def wTensor2 : Tensor := ⟨[4], 1⟩

def wModel : Model := ⟨8, false, [], 0⟩

def wKeyC5 : Key := kDecoder ++ kDot ++ ['l', 'm']

def wSDC5 : StateDict := [(wKeyC5, wTensor)]

def wSDC5out : StateDict := [(encOf wKeyC5, wTensor)]

/-- Witness for C5 at a one-entry blob holding `decoder.lm`. -/
theorem decoder_namespace_rename_witness :
    ((keysA wSDC5).Nodup) ∧ (wKeyC5 ∈ keysA wSDC5) ∧
    ((kDecoder ++ kDot).isPrefixOf wKeyC5 = true) ∧
    (upgrade_state_dict_named wModel wSDC5 [] = Except.ok (wModel, wSDC5out, [])) ∧
    (lookupA wSDC5out (encOf wKeyC5) = lookupA wSDC5 wKeyC5 ∧
      lookupA wSDC5out wKeyC5 = none) :=
  ⟨by decide, by decide, by decide, by decide,
   decoder_namespace_rename wModel wSDC5 wModel wSDC5out [] (by decide) wKeyC5
     (by decide) (by decide) (by decide)⟩

def wKeyC9 : Key := kDecoder ++ ['_', 'e', 'm', 'b', 'e', 'd']

def wSDC9 : StateDict := [(wKeyC9, wTensor)]

def wSDC9out : StateDict := [(encOf wKeyC9, wTensor)]

/-- Witness for C9 at a blob holding `decoder_embed`, where `decoder` is not a
complete path segment. -/
theorem decoder_plain_prefix_rename_witness :
    ((keysA wSDC9).Nodup) ∧ (wKeyC9 ∈ keysA wSDC9) ∧ (decP wKeyC9 = true) ∧
    (upgrade_state_dict_named wModel wSDC9 [] = Except.ok (wModel, wSDC9out, [])) ∧
    (lookupA wSDC9out (encOf wKeyC9) = lookupA wSDC9 wKeyC9 ∧
      lookupA wSDC9out wKeyC9 = none) :=
  ⟨by decide, by decide, by decide, by decide,
   decoder_plain_prefix_rename wModel wSDC9 wModel wSDC9out [] (by decide) wKeyC9
     (by decide) (by decide) (by decide)⟩

def wEncA : Key := kEncoder ++ kDot ++ ['a']

def wDecA : Key := kDecoder ++ kDot ++ ['a']

def wSDC8 : StateDict := [(wEncA, wTensor), (wDecA, wTensor2)]

/-- C8 counterexample: `encoder.a` is neither under the legacy `decoder`
namespace nor under the classification-heads namespace, yet migration changes
its value: the legacy twin `decoder.a` is renamed onto it (last-writer-wins),
so the claim's unconditional frame property is false. -/
theorem collision_key_not_preserved :
    (decP wEncA = false) ∧ (clsP wEncA = false) ∧
    lookupA wSDC8 wEncA = some wTensor ∧
    upgrade_state_dict_named wModel wSDC8 [] =
      Except.ok (wModel, [(wEncA, wTensor2)], []) ∧
    wTensor2 ≠ wTensor := by
  decide

def wFoo : Key := ['f', 'o', 'o']

def wSDC8w : StateDict := [(wFoo, wTensor)]

/-- Witness for C8's amended theorem at a blob holding a plain key `foo`. -/
theorem untouched_keys_preserved_witness :
    ((keysA wSDC8w).Nodup) ∧ (decP wFoo = false) ∧ (clsP wFoo = false) ∧
    (¬(encP wFoo = true ∧ decTwin wFoo ∈ keysA wSDC8w)) ∧
    (upgrade_state_dict_named wModel wSDC8w [] = Except.ok (wModel, wSDC8w, [])) ∧
    lookupA wSDC8w wFoo = lookupA wSDC8w wFoo :=
  ⟨by decide, by decide, by decide, by decide, by decide,
   untouched_keys_preserved wModel wSDC8w wModel wSDC8w [] (by decide) wFoo
     (by decide) (by decide) (by decide) (by decide)⟩

/-! ### Claims C3 and C7 -/

theorem renameLoop_cls (sd : StateDict) (hnd : (keysA sd).Nodup) (q : Key)
    (hq : clsP q = true) :
    lookupA (renameLoop [] (keysA sd) sd) q = lookupA sd q :=
  renameLoop_lookup_other sd hnd q
    (bfalse fun hc => (cls_not_dec q hq hc).elim)
    (bfalse fun hc => (cls_not_enc q hq hc).elim)

theorem persistedNC_rename (sd : StateDict) (hnd : (keysA sd).Nodup) (g : Key) :
    persistedNC (renameLoop [] (keysA sd) sd) g = persistedNC sd g := by
  unfold persistedNC
  rw [renameLoop_cls sd hnd _ (clsP_oKeyOf g)]

theorem persistedID_rename (sd : StateDict) (hnd : (keysA sd).Nodup) (g : Key) :
    persistedID (renameLoop [] (keysA sd) sd) g = persistedID sd g := by
  unfold persistedID
  rw [renameLoop_cls sd hnd _ (clsP_dKeyOf g)]

theorem mem_keys_rename (sd : StateDict) (hnd : (keysA sd).Nodup) (k : Key)
    (hcls : clsP k = true) :
    (k ∈ keysA (renameLoop [] (keysA sd) sd)) ↔ k ∈ keysA sd := by
  rw [mem_keysA, mem_keysA, renameLoop_cls sd hnd k hcls]

theorem backfill_present2 (m : Model) (sd : StateDict) (q : Key)
    (h : containsA sd q = true) :
    lookupA (backfill [] m sd) q = lookupA sd q := by
  unfold backfill
  exact backfill_present _ _ _ h

theorem backfill_no_new_head (m : Model)
    (hdot : ∀ g2 ∈ keysA m.classification_heads, ('.' : Char) ∉ g2)
    (sd : StateDict) (k : Key)
    (hunk : lookupA m.classification_heads (headOf k) = none) :
    lookupA (backfill [] m sd) k = lookupA sd k := by
  unfold backfill
  apply backfill_frame
  intro p hp hcc
  rw [mem_headsStateDict] at hp
  obtain ⟨q2, hq2, hcase⟩ := hp
  have hq2dot : ('.' : Char) ∉ q2.1 := by
    apply hdot
    rw [keysA]
    exact List.mem_map_of_mem Prod.fst hq2
  have hq2some : (lookupA m.classification_heads q2.1).isSome := by
    rw [← mem_keysA, keysA]
    exact List.mem_map_of_mem Prod.fst hq2
  have hhead : headOf k = q2.1 := by
    rcases hcase with hc | hc | hc | hc
    · rw [← hcc, congrArg Prod.fst hc]
      exact headOf_cls_key q2.1 kDenseW hq2dot rfl
    · rw [← hcc, congrArg Prod.fst hc]
      exact headOf_cls_key q2.1 kDenseB hq2dot rfl
    · rw [← hcc, congrArg Prod.fst hc]
      exact headOf_cls_key q2.1 kOutProjW hq2dot rfl
    · rw [← hcc, congrArg Prod.fst hc]
      exact headOf_cls_key q2.1 kOutProjB hq2dot rfl
  rw [hhead] at hunk
  rw [hunk] at hq2some
  cases hq2some

/-- C3 (amended): with `load_checkpoint_heads` disabled, a known head whose
persisted shapes differ from the live head's shapes has every one of its keys
dropped (they all appear in the returned dropped-key list), and the migrated
blob instead holds the live head's current parameter tensors under its four
canonical keys. -/
theorem shape_mismatch_dropped_policy_off (m : Model) (sd : StateDict)
    (m2 : Model) (sd2 : StateDict) (dels : List Key)
    (hnd : (keysA sd).Nodup) (hwn : headsWellNamed m.classification_heads)
    (hoff : m.load_checkpoint_heads = false)
    (g : Key) (cur : SMLPClassificationHead)
    (hcur : lookupA m.classification_heads g = some cur)
    (nc idim : Nat)
    (hnc : persistedNC sd g = some nc) (hid : persistedID sd g = some idim)
    (hmis : nc ≠ cur.out_proj_out_features ∨ idim ≠ cur.dense_out_features)
    (h : upgrade_state_dict_named m sd [] = .ok (m2, sd2, dels)) :
    (∀ k ∈ keysA sd, clsP k = true → headOf k = g → k ∈ dels) ∧
    lookupA sd2 (kClsNS ++ (g ++ kDenseW)) = some cur.dense_weight ∧
    lookupA sd2 (kClsNS ++ (g ++ kDenseB)) = some cur.dense_bias ∧
    lookupA sd2 (kClsNS ++ (g ++ kOutProjW)) = some cur.out_proj_weight ∧
    lookupA sd2 (kClsNS ++ (g ++ kOutProjB)) = some cur.out_proj_bias := by
  obtain ⟨st, hhr, hout⟩ := (upgrade_ok_iff m sd _).mp h
  have hsd2 := congrArg (fun p => p.2.1) hout
  have hdels := congrArg (fun p => p.2.2) hout
  simp only at hsd2 hdels
  obtain ⟨hst1, hst2⟩ := headReconcile_off m hoff _ st hhr
  have hgdot : ('.' : Char) ∉ g := by
    apply hwn.2
    rw [mem_keysA, hcur]
    rfl
  have hdropg : ∀ q, clsP q = true → headOf q = g → dropsKey m (renameLoop [] (keysA sd) sd) q = true := by
    intro q hq hh
    unfold dropsKey
    rw [hq, hh, hcur, persistedNC_rename sd hnd g, persistedID_rename sd hnd g,
      hnc, hid]
    simpa using hmis
  have hindels : ∀ q, clsP q = true → headOf q = g → q ∈ keysA sd → q ∈ st.2 := by
    intro q hq hh hmem
    rw [hst2, List.mem_filter]
    exact ⟨(mem_keys_rename sd hnd q hq).mpr hmem, hdropg q hq hh⟩
  have hgone : ∀ q, clsP q = true → headOf q = g →
      lookupA (eraseAll st.2 (renameLoop [] (keysA sd) sd)) q = none := by
    intro q hq hh
    rw [lookupA_eraseAll]
    split
    · rfl
    · next hnin =>
      cases hl : lookupA (renameLoop [] (keysA sd) sd) q with
      | none => rfl
      | some t =>
        exfalso
        apply hnin
        rw [hst2, List.mem_filter]
        refine ⟨?_, hdropg q hq hh⟩
        rw [mem_keysA, hl]
        rfl
  have hcanon : ∀ (suffix : Key) (tv : Tensor),
      ((suffix = kDenseW ∧ tv = cur.dense_weight) ∨
       (suffix = kDenseB ∧ tv = cur.dense_bias) ∨
       (suffix = kOutProjW ∧ tv = cur.out_proj_weight) ∨
       (suffix = kOutProjB ∧ tv = cur.out_proj_bias)) →
      suffix.head? = some '.' →
      lookupA sd2 (kClsNS ++ (g ++ suffix)) = some tv := by
    intro suffix tv hsel hsuf
    have hq : clsP (kClsNS ++ (g ++ suffix)) = true := clsP_clsNS_append _
    have hh : headOf (kClsNS ++ (g ++ suffix)) = g :=
      headOf_cls_key g suffix hgdot hsuf
    have habs : containsA (eraseAll st.2 (renameLoop [] (keysA sd) sd))
        (kClsNS ++ (g ++ suffix)) = false := by
      unfold containsA
      rw [hgone _ hq hh]
      rfl
    rw [hsd2, hst1]
    exact backfill_canonical m hwn.1 hwn.2 g cur hcur suffix tv hsel _ habs
  refine ⟨?_, ?_, ?_, ?_, ?_⟩
  · intro k hk hcls hhead
    rw [hdels]
    exact hindels k hcls hhead hk
  · exact hcanon kDenseW cur.dense_weight (Or.inl ⟨rfl, rfl⟩) rfl
  · exact hcanon kDenseB cur.dense_bias (Or.inr (Or.inl ⟨rfl, rfl⟩)) rfl
  · exact hcanon kOutProjW cur.out_proj_weight (Or.inr (Or.inr (Or.inl ⟨rfl, rfl⟩))) rfl
  · exact hcanon kOutProjB cur.out_proj_bias (Or.inr (Or.inr (Or.inr ⟨rfl, rfl⟩))) rfl

/-- The head name `"sst2"`. -/
def wSST : Key := ['s', 's', 't', '2']

/-- A live head of shapes `num_classes = 2`, `inner_dim = 4`. -/
def wHeadC3 : SMLPClassificationHead := SMLPClassificationHead.build 4 4 2 0

/-- A blob persisting head `sst2` with `num_classes = 3` (mismatching the
live head's 2). -/
def wSDC3 : StateDict :=
  [(kClsNS ++ (wSST ++ kOutProjW), ⟨[3, 4], 300⟩),
   (kClsNS ++ (wSST ++ kDenseW), ⟨[4, 4], 301⟩)]

/-- The model with the policy flag enabled. -/
def wModelC3on : Model := ⟨4, true, [(wSST, wHeadC3)], 4⟩

/-- C3 counterexample: with `load_checkpoint_heads` ENABLED, a known head
whose persisted shapes mismatch the live head's shapes is kept: its
`out_proj.weight` key survives migration with the persisted tensor and the
dropped-key list is empty, contradicting the claim's "for every value of
the load_unknown_heads_policy flag". -/
theorem mismatched_head_kept_policy_on :
    (upgrade_state_dict_named wModelC3on wSDC3 []).map
        (fun out => (lookupA out.2.1 (kClsNS ++ (wSST ++ kOutProjW)), out.2.2))
      = Except.ok (some (⟨[3, 4], 300⟩ : Tensor), ([] : List Key)) := by
  decide

/-- The model with the policy flag disabled. -/
def wModelC3off : Model := ⟨4, false, [(wSST, wHeadC3)], 4⟩

/-- The migrated blob for `wModelC3off` on `wSDC3`: both mismatched keys
erased, the four canonical keys backfilled with the live head's tensors. -/
def wSD2C3 : StateDict :=
  [(kClsNS ++ (wSST ++ kDenseW), ⟨[4, 4], 0⟩),
   (kClsNS ++ (wSST ++ kDenseB), ⟨[4], 1⟩),
   (kClsNS ++ (wSST ++ kOutProjW), ⟨[2, 4], 2⟩),
   (kClsNS ++ (wSST ++ kOutProjB), ⟨[2], 3⟩)]

/-- The dropped keys for `wModelC3off` on `wSDC3`. -/
def wDelsC3 : List Key :=
  [kClsNS ++ (wSST ++ kOutProjW), kClsNS ++ (wSST ++ kDenseW)]

/-- Witness for C3: on the concrete mismatched blob `wSDC3` under the
policy-off model, the backfilled blob holds the live head's
`dense.weight`. -/
theorem shape_mismatch_dropped_policy_off_witness :
    lookupA wSD2C3 (kClsNS ++ (wSST ++ kDenseW)) = some wHeadC3.dense_weight :=
  (shape_mismatch_dropped_policy_off wModelC3off wSDC3 wModelC3off wSD2C3 wDelsC3
    (by decide) (by decide) rfl wSST wHeadC3 (by decide) 3 4 (by decide)
    (by decide) (Or.inl (by decide)) (by decide)).2.1

/-- C7: a head name occurring in the blob's classification-heads namespace
but unknown to the model is, with the policy enabled, registered on the
model with the persisted shapes and all its keys kept; with the policy
disabled, every one of its keys is dropped and erased from the blob. -/
theorem unknown_head_policy (m : Model) (sd : StateDict) (m2 : Model)
    (sd2 : StateDict) (dels : List Key)
    (hnd : (keysA sd).Nodup) (hwn : headsWellNamed m.classification_heads)
    (g : Key) (hunk : lookupA m.classification_heads g = none)
    (h : upgrade_state_dict_named m sd [] = .ok (m2, sd2, dels)) :
    (m.load_checkpoint_heads = true → occursIn (keysA sd) g →
      (∃ fr nc idim, persistedNC sd g = some nc ∧ persistedID sd g = some idim ∧
        lookupA m2.classification_heads g =
          some (SMLPClassificationHead.build m.encoder_embed_dim
            (if idim = 0 then m.encoder_embed_dim else idim) nc fr)) ∧
      dels = [] ∧
      (∀ k ∈ keysA sd, clsP k = true → headOf k = g →
        lookupA sd2 k = lookupA sd k)) ∧
    (m.load_checkpoint_heads = false →
      ∀ k ∈ keysA sd, clsP k = true → headOf k = g →
        k ∈ dels ∧ lookupA sd2 k = none) := by
  obtain ⟨st, hhr, hout⟩ := (upgrade_ok_iff m sd _).mp h
  have hm2 : m2 = st.1 := congrArg (fun p => p.1) hout
  have hsd2 : sd2 = backfill [] st.1
      (eraseAll st.2 (renameLoop [] (keysA sd) sd)) :=
    congrArg (fun p => p.2.1) hout
  have hdels : dels = st.2 := congrArg (fun p => p.2.2) hout
  constructor
  · intro hon hocc
    obtain ⟨h1, _h2, _h3, h4⟩ := headReconcile_on m hon _ st hhr
    have hocc1 : occursIn (keysA (renameLoop [] (keysA sd) sd)) g := by
      obtain ⟨k, hk, hcls, hh⟩ := hocc
      exact ⟨k, (mem_keys_rename sd hnd k hcls).mpr hk, hcls, hh⟩
    obtain ⟨fr, nc, idim, hn, hi, hl⟩ := h4 g (by simp [hunk]) hocc1
    refine ⟨⟨fr, nc, idim, ?_, ?_, ?_⟩, ?_, ?_⟩
    · rw [← persistedNC_rename sd hnd g]
      exact hn
    · rw [← persistedID_rename sd hnd g]
      exact hi
    · rw [hm2]
      exact hl
    · rw [hdels]
      exact h1
    · intro k hk hcls _hh
      have hk1 : lookupA (renameLoop [] (keysA sd) sd) k = lookupA sd k :=
        renameLoop_cls sd hnd k hcls
      have herase : eraseAll st.2 (renameLoop [] (keysA sd) sd) =
          renameLoop [] (keysA sd) sd := by
        rw [h1]
        rfl
      have hcont : containsA (renameLoop [] (keysA sd) sd) k = true := by
        unfold containsA
        rw [hk1]
        rw [mem_keysA] at hk
        exact hk
      rw [hsd2, herase, backfill_present2 st.1 _ k hcont, hk1]
  · intro hoff k hk hcls hh
    obtain ⟨hst1, hst2⟩ := headReconcile_off m hoff _ st hhr
    have hdropk : dropsKey m (renameLoop [] (keysA sd) sd) k = true := by
      unfold dropsKey
      rw [hcls, hh, hunk]
      rfl
    have hmemfil : k ∈ st.2 := by
      rw [hst2, List.mem_filter]
      exact ⟨(mem_keys_rename sd hnd k hcls).mpr hk, hdropk⟩
    refine ⟨?_, ?_⟩
    · rw [hdels]
      exact hmemfil
    · have hgone : lookupA (eraseAll st.2 (renameLoop [] (keysA sd) sd)) k = none := by
        rw [lookupA_eraseAll]
        split
        · rfl
        · next hnin => exact absurd hmemfil hnin
      rw [hsd2, hst1]
      rw [backfill_no_new_head m hwn.2 _ k (by rw [hh]; exact hunk)]
      exact hgone

/-- The head name `"mnli"`. -/
def wMNLI : Key := ['m', 'n', 'l', 'i']

/-- A policy-enabled model with no registered heads. -/
def wModelC7 : Model := ⟨4, true, [], 0⟩

/-- A blob persisting the unknown head `mnli` with `num_classes = 3`,
`inner_dim = 4`. -/
def wSDC7 : StateDict :=
  [(kClsNS ++ (wMNLI ++ kOutProjW), ⟨[3, 4], 100⟩),
   (kClsNS ++ (wMNLI ++ kDenseW), ⟨[4, 4], 101⟩)]

/-- The model after migrating `wSDC7`: head `mnli` registered with the
persisted shapes. -/
def wM2C7 : Model :=
  ⟨4, true, [(wMNLI, SMLPClassificationHead.build 4 4 3 0)], 4⟩

/-- The blob after migrating `wSDC7`: the two persisted keys kept, the two
absent canonical keys backfilled. -/
def wSD2C7 : StateDict :=
  [(kClsNS ++ (wMNLI ++ kOutProjW), ⟨[3, 4], 100⟩),
   (kClsNS ++ (wMNLI ++ kDenseW), ⟨[4, 4], 101⟩),
   (kClsNS ++ (wMNLI ++ kDenseB), ⟨[4], 1⟩),
   (kClsNS ++ (wMNLI ++ kOutProjB), ⟨[3], 3⟩)]

/-- Witness for C7: migrating the concrete blob `wSDC7` under the
policy-enabled head-less model keeps the unknown head's
`out_proj.weight` key unchanged. -/
theorem unknown_head_policy_witness :
    lookupA wSD2C7 (kClsNS ++ (wMNLI ++ kOutProjW)) =
      lookupA wSDC7 (kClsNS ++ (wMNLI ++ kOutProjW)) :=
  ((unknown_head_policy wModelC7 wSDC7 wM2C7 wSD2C7 [] (by decide) (by decide)
      wMNLI (by decide) (by decide)).1 rfl
    ⟨kClsNS ++ (wMNLI ++ kOutProjW), by decide, by decide, by decide⟩).2.2
    (kClsNS ++ (wMNLI ++ kOutProjW)) (by decide) (by decide) (by decide)

/-! ### Claims C6, C2 and C10 -/

/-- The head name `"foo"`. -/
def wFooC6 : Key := ['f', 'o', 'o']

/-- C6 counterexample: a blob holding a head's `dense.weight` but not its
`out_proj.weight` makes migration raise `KeyError` (the unguarded
`state_dict[...].size(0)` read), contradicting the claim that the only
failure mode is the rank bounds check. -/
theorem migration_keyerror_missing_weight :
    upgrade_state_dict_named wModel
        [(kClsNS ++ (wFooC6 ++ kDenseW), wTensor)] []
      = Except.error (PyErr.keyError (kClsNS ++ (wFooC6 ++ kOutProjW))) := by
  decide

/-- C6 (amended): migration completes without raising on every blob in which,
for each classification-heads key, the referenced head's `out_proj.weight`
and `dense.weight` entries are present with nonempty shape. -/
theorem migration_total_when_head_weights_readable (m : Model) (sd : StateDict)
    (hnd : (keysA sd).Nodup)
    (hread : ∀ k ∈ keysA sd, clsP k = true →
      (∃ t n s, lookupA sd (oKeyOf (headOf k)) = some t ∧ t.shape = n :: s) ∧
      (∃ t n s, lookupA sd (dKeyOf (headOf k)) = some t ∧ t.shape = n :: s)) :
    ∃ out, upgrade_state_dict_named m sd [] = .ok out := by
  have hread1 : ∀ k ∈ keysA (renameLoop [] (keysA sd) sd), clsP k = true →
      (∃ t n s, lookupA (renameLoop [] (keysA sd) sd) (oKeyOf (headOf k)) = some t ∧
        t.shape = n :: s) ∧
      (∃ t n s, lookupA (renameLoop [] (keysA sd) sd) (dKeyOf (headOf k)) = some t ∧
        t.shape = n :: s) := by
    intro k hk hcls
    have hk0 : k ∈ keysA sd := (mem_keys_rename sd hnd k hcls).mp hk
    obtain ⟨⟨t1, n1, s1, hl1, hs1⟩, ⟨t2, n2, s2, hl2, hs2⟩⟩ := hread k hk0 hcls
    refine ⟨⟨t1, n1, s1, ?_, hs1⟩, ⟨t2, n2, s2, ?_, hs2⟩⟩
    · rw [renameLoop_cls sd hnd _ (clsP_oKeyOf (headOf k))]
      exact hl1
    · rw [renameLoop_cls sd hnd _ (clsP_dKeyOf (headOf k))]
      exact hl2
  obtain ⟨st, hst⟩ := foldlM_hrStep_total (renameLoop [] (keysA sd) sd)
    (keysA (renameLoop [] (keysA sd) sd)) (m, []) hread1
  exact ⟨_, (upgrade_ok_iff m sd _).mpr ⟨st, hst, rfl⟩⟩

/-- A blob persisting head `foo` completely enough for both shape reads. -/
def wSDC6 : StateDict :=
  [(kClsNS ++ (wFooC6 ++ kOutProjW), ⟨[3, 8], 400⟩),
   (kClsNS ++ (wFooC6 ++ kDenseW), ⟨[8, 8], 401⟩)]

/-- Witness for C6: migration of the concrete readable blob `wSDC6`
completes without raising. -/
theorem migration_total_when_head_weights_readable_witness :
    ∃ out, upgrade_state_dict_named wModel wSDC6 [] = .ok out :=
  migration_total_when_head_weights_readable wModel wSDC6 (by decide)
    (by
      intro k hk hcls
      have hk2 : k = kClsNS ++ (wFooC6 ++ kOutProjW) ∨
          k = kClsNS ++ (wFooC6 ++ kDenseW) := by
        simpa [wSDC6, keysA] using hk
      rcases hk2 with rfl | rfl <;>
        exact ⟨⟨⟨[3, 8], 400⟩, 3, [8], by decide, rfl⟩,
          ⟨⟨[8, 8], 401⟩, 8, [8], by decide, rfl⟩⟩)

/-- The warning flag of `register_classification_head`, unfolded. -/
theorem register_warned_eq (m : Model) (name : Key) (nc idim : Nat) :
    (register_classification_head m name nc idim).2 =
      match lookupA m.classification_heads name with
      | some prev =>
          decide (nc ≠ prev.out_proj_out_features ∨ idim ≠ prev.dense_out_features)
      | none => false := rfl

/-- The head name `"qqp"`. -/
def wQQP : Key := ['q', 'q', 'p']

/-- A model already holding head `qqp` with `num_classes = 2`,
`inner_dim = 4`. -/
def wModelC2 : Model := ⟨4, false, [(wQQP, SMLPClassificationHead.build 4 4 2 0)], 4⟩

/-- C2 counterexample: re-registering `qqp` with the identical
`(num_classes, inner_dim)` is silent but NOT a no-op: the head object is
replaced by a freshly initialized one (and the initialization source
advances), so the head collection changes. -/
theorem reregister_same_values_not_noop :
    (register_classification_head wModelC2 wQQP 2 4).2 = false ∧
    (register_classification_head wModelC2 wQQP 2 4).1 ≠ wModelC2 := by
  decide

/-- C2 (amended): `register_classification_head` always stores a freshly
built head under the given name (even on a value-equal re-registration),
leaves every other name unchanged, warns exactly when the name existed with
different `(num_classes, inner_dim)`, and raises no exception (it is a
total function). -/
theorem register_classification_head_replaces (m : Model) (name : Key)
    (nc idim : Nat) :
    lookupA ((register_classification_head m name nc idim).1).classification_heads
        name =
      some (SMLPClassificationHead.build m.encoder_embed_dim
        (if idim = 0 then m.encoder_embed_dim else idim) nc m.fresh) ∧
    (∀ g, g ≠ name →
      lookupA ((register_classification_head m name nc idim).1).classification_heads
          g = lookupA m.classification_heads g) ∧
    ((register_classification_head m name nc idim).2 = true ↔
      ∃ prev, lookupA m.classification_heads name = some prev ∧
        (nc ≠ prev.out_proj_out_features ∨ idim ≠ prev.dense_out_features)) := by
  refine ⟨?_, ?_, ?_⟩
  · rw [register_heads_eq]
    exact lookupA_insertA_self _ _ _
  · intro g hg
    rw [register_heads_eq]
    exact lookupA_insertA_ne _ _ _ _ hg
  · rw [register_warned_eq]
    cases hl : lookupA m.classification_heads name with
    | none => simp
    | some prev => simp

/-- The encoder interface `forward` consults (source lines 436-481):
feature extraction, the auxiliary `extra` payload, and the LM output
layer. -/
structure EncoderT (T : Type) where
  extract_features : Nat → T
  extra : Nat → Nat
  output_layer : T → T

/-- `RobertaEncoder.forward` (source lines 436-469): extract features, then
apply the LM head unless `features_only`. -/
def encoder_forward {T : Type} (e : EncoderT T) (src : Nat)
    (features_only : Bool) : T × Nat :=
  (if features_only then e.extract_features src
   else e.output_layer (e.extract_features src), e.extra src)

/-- The state `SMLP_MLM_Model.forward` consults: the encoder and the head
collection (`nn.ModuleDict` lookup raises `KeyError` when absent). -/
structure FwdModel (T : Type) where
  encoder : EncoderT T
  classification_heads : List (Key × (T → T))

/-- `SMLP_MLM_Model.forward` (source lines 171-186): a supplied
`classification_head_name` forces `features_only = True`, then the named
head is applied to the encoder output. -/
def model_forward {T : Type} (m : FwdModel T) (src : Nat)
    (features_only : Bool) (classification_head_name : Option Key) :
    Except PyErr (T × Nat) :=
  let fo := if classification_head_name.isSome then true else features_only
  let p := encoder_forward m.encoder src fo
  match classification_head_name with
  | none => pure p
  | some name =>
    match lookupA m.classification_heads name with
    | some h => pure (h p.1, p.2)
    | none => .error (.keyError name)

/-- C10: with a classification head named, `forward` returns the head
applied to the extracted features whatever the caller passed for
`features_only`, and the LM output layer is never consulted. -/
theorem forward_head_forces_features (T : Type) (m : FwdModel T) (src : Nat)
    (features_only : Bool) (name : Key) (h : T → T)
    (hh : lookupA m.classification_heads name = some h) :
    model_forward m src features_only (some name) =
      .ok (h (m.encoder.extract_features src), m.encoder.extra src) ∧
    ∀ ol, model_forward ⟨⟨m.encoder.extract_features, m.encoder.extra, ol⟩,
        m.classification_heads⟩ src features_only (some name) =
      model_forward m src features_only (some name) := by
  constructor
  · unfold model_forward encoder_forward
    simp [hh, pure, Except.pure]
  · intro ol
    unfold model_forward encoder_forward
    simp [hh]

/-- A concrete encoder over `Nat` payloads. -/
def wEncC10 : EncoderT Nat := ⟨fun s => s + 1, fun s => 2 * s, fun x => 1000 * x⟩

/-- A concrete model with one head, `mnli`. -/
def wFMC10 : FwdModel Nat := ⟨wEncC10, [(wMNLI, fun f => f + 7)]⟩

/-- Witness for C10: on the concrete model, naming head `mnli` while
passing `features_only = false` yields the head applied to the features,
untouched by the LM layer. -/
theorem forward_head_forces_features_witness :
    model_forward wFMC10 5 false (some wMNLI) =
      Except.ok ((fun f => f + 7) (wFMC10.encoder.extract_features 5),
        wFMC10.encoder.extra 5) :=
  (forward_head_forces_features Nat wFMC10 5 false wMNLI (fun f => f + 7) rfl).1
